import Mathlib

/-!
Verification of the log-structured key-value store engine
(src/engine/kvstore: kv.rs, file.rs, command.rs, error.rs).

The engine is embedded shallowly and sequentially: one handle, operations
applied one after another, file I/O always succeeding.  Segment files are
modelled as lists of `Command` records; byte offsets are computed from the
byte length of the serde_json encoding produced by `Command::ser`
(command.rs), so locators carry real byte positions and lengths.
-/

namespace KvsProof

abbrev Key := String
abbrev Value := String

/-- `Location` from file.rs: file id and byte offset of one record. -/
structure Location where
  id : Nat
  offset : Nat
deriving DecidableEq, Repr

/-- `CmdInfo` from kv.rs: a record locator, `loc` plus the record's byte length. -/
structure CmdInfo where
  loc : Location
  len : Nat
deriving DecidableEq, Repr

/-- `CmdInfo::new(id, offset, len)` from kv.rs. -/
def CmdInfo.mk' (id : Nat) (offset : Nat) (len : Nat) : CmdInfo :=
  { loc := { id := id, offset := offset }, len := len }

/-- `Command` from command.rs: the two record kinds. -/
inductive Command where
  | Set : Key → Value → Command
  | Rm : Key → Command
deriving DecidableEq, Repr

/-- `Error` from error.rs, plus the io/serde error kinds wrapped by the crate
(`IoErr` for filesystem failures, `CodecErr` for malformed records). -/
inductive KvsError where
  | BadPath : KvsError
  | InvalidMeta : KvsError
  | UnexpectCmd : String → String → KvsError
  | KeyNotFound : Key → KvsError
  | UnknowErr : String → KvsError
  | IoErr : KvsError
  | CodecErr : KvsError
deriving DecidableEq, Repr

/-- Byte length contributed by one character inside a serde_json string
literal: `"` and `\` and the control characters with a short escape take two
bytes, other control characters take six (`\u00xx`), anything else is written
as its UTF-8 bytes. -/
def escByteLen (c : Char) : Nat :=
  if c = '"' ∨ c = '\\' ∨ c = '\x08' ∨ c = '\t' ∨ c = '\n' ∨ c = '\x0c' ∨ c = '\r' then 2
  else if c.toNat < 0x20 then 6
  else c.utf8Size

/-- Byte length of the serde_json encoding of a string payload (without the
surrounding quotes). -/
def escLen (s : String) : Nat := (s.data.map escByteLen).sum

/-- Byte length of `Command::ser` (command.rs): serde_json writes
`Set(k, v)` as `\x7b"S":["k","v"]\x7d` (13 framing bytes) and `Rm(k)` as
`\x7b"R":"k"\x7d` (8 framing bytes). -/
def serLen : Command → Nat
  | .Set k v => 13 + escLen k + escLen v
  | .Rm k => 8 + escLen k

/-- A segment file: the sequence of records appended to it, in order. -/
abbrev SegFile := List Command

/-- Total byte size of a segment file (`seek(SeekFrom::End(0))`). -/
def fileSize (f : SegFile) : Nat := (f.map serLen).sum

/-- Stream decode walking a file: `pos` is the byte offset of the head record;
returns the record starting exactly at `target`.  Decoding at a byte position
that is not a record boundary, or at end of file, fails (serde_json fails
cleanly there). -/
def decodeFrom : SegFile → Nat → Nat → Option Command
  | [], _, _ => none
  | c :: rest, pos, target =>
    if pos = target then some c else decodeFrom rest (pos + serLen c) target

/-- `Command::from_reader` after seeking to byte `target` of file `f`. -/
def decodeAt (f : SegFile) (target : Nat) : Option Command := decodeFrom f 0 target

/-- The `.data` files of the store directory: an id-sorted association list. -/
abbrev Files := List (Nat × SegFile)

/-- Content of `<id>.data`, if that file exists. -/
def fileGet : Files → Nat → Option SegFile
  | [], _ => none
  | (i, f) :: rest, id => if id = i then some f else fileGet rest id

/-- Write `<id>.data` with content `f` (create or replace), keeping the list
sorted by id. -/
def filesSet : Files → Nat → SegFile → Files
  | [], id, f => [(id, f)]
  | (i, g) :: rest, id, f =>
    if id < i then (id, f) :: (i, g) :: rest
    else if id = i then (id, f) :: rest
    else (i, g) :: filesSet rest id f

/-- `fs::remove_file(<id>.data)` for every id in `[low, hi)`
(the deletion loop at the end of `KvStore::compact`). -/
def filesDelRange (files : Files) (low hi : Nat) : Files :=
  files.filter fun p => !(decide (low ≤ p.1) && decide (p.1 < hi))

/-- Read one record at a locator: open `<loc.id>.data` and decode at
`loc.offset`. -/
def fileDecode (files : Files) (loc : Location) : Option Command :=
  (fileGet files loc.id).bind fun f => decodeAt f loc.offset

/-- The in-memory index (`CHashMap<String, CmdInfo>` in kv.rs), modelled as an
association list with unique keys. -/
abbrev Idx := List (Key × CmdInfo)

/-- `index.get(&key)`. -/
def idxLookup (m : Idx) (k : Key) : Option CmdInfo :=
  (m.find? fun p => p.1 == k).map Prod.snd

/-- Drop every binding of key `k`. -/
def idxErase (m : Idx) (k : Key) : Idx := m.filter fun p => p.1 != k

/-- `index.insert(key, v)`: returns the previous binding and the new map. -/
def idxInsert (m : Idx) (k : Key) (v : CmdInfo) : Option CmdInfo × Idx :=
  (idxLookup m k, (k, v) :: idxErase m k)

/-- `index.remove(&key)`: returns the removed binding and the new map. -/
def idxRemove (m : Idx) (k : Key) : Option CmdInfo × Idx :=
  (idxLookup m k, idxErase m k)

/-- `COMPACT_THRESHOLD` from kv.rs. -/
def COMPACT_THRESHOLD : Nat := 2 * 1024 * 1024

/-- `ACTIVE_THRESHOLD` from kv.rs (stored by the builder, never read back). -/
def ACTIVE_THRESHOLD : Nat := 1024 * 1024

/-- The engine state of `KvStore` (kv.rs), sequential view: the shared state
(index, active id, garbage counter, lowest live id) together with this
handle's reader cache `fds` (the key set of its `BTreeMap<Nat, Fdr>`) and the
on-disk `.data` files. -/
structure Store where
  files : Files
  activeId : Nat
  index : Idx
  garbage : Nat
  lowestId : Nat
  fds : List Nat
  cthreshold : Nat
deriving DecidableEq, Repr

/-- Content of the active segment file. -/
def Store.activeFile (s : Store) : SegFile := (fileGet s.files s.activeId).getD []

/-- `KvStore::append`: seek to the end of the active file, write the encoded
command, and return the locator taken inside the lock. -/
def Store.append (s : Store) (c : Command) : CmdInfo × Store :=
  let f := s.activeFile
  let offset := fileSize f
  (CmdInfo.mk' s.activeId offset (serLen c),
   { s with files := filesSet s.files s.activeId (f ++ [c]) })

/-- Result of a mutating operation: the new state, whether a `Compact`
message was sent on the compactor channel, and the returned error if any. -/
structure OpOut where
  store : Store
  sent : Bool
  err : Option KvsError
deriving DecidableEq, Repr

/-- `KvStore::set`: append `Set(key, val)`, insert the locator, add the
superseded record's length to the garbage counter, and request compaction if
the counter's previous value (`fetch_add` returns the value before the
addition) exceeds the threshold.  A fresh key creates no garbage and returns
before the counter is touched. -/
def Store.set (s : Store) (key : Key) (val : Value) : OpOut :=
  let r := s.append (.Set key val)
  let ins := idxInsert r.2.index key r.1
  let s2 := { r.2 with index := ins.2 }
  let new_gbg := match ins.1 with
    | some old => old.len
    | none => 0
  if new_gbg = 0 then ⟨s2, false, none⟩
  else
    let gbg_sz : Nat := s2.garbage
    let s3 := { s2 with garbage := s2.garbage + new_gbg }
    if s2.cthreshold < gbg_sz then ⟨s3, true, none⟩ else ⟨s3, false, none⟩

/-- `KvStore::remove`: probe the index and fail with `KeyNotFound` if the key
is absent; otherwise append a tombstone, remove the binding, count the
tombstone plus the removed record as garbage, maybe request compaction, and
fail with `KeyNotFound` after the fact if the removal found nothing. -/
def Store.remove (s : Store) (key : Key) : OpOut :=
  if (idxLookup s.index key).isNone then ⟨s, false, some (.KeyNotFound key)⟩
  else
    let r := s.append (.Rm key)
    let rm := idxRemove r.2.index key
    let s2 := { r.2 with index := rm.2 }
    let new_gbg := match rm.1 with
      | some old => r.1.len + old.len
      | none => r.1.len
    let gbg_sz : Nat := s2.garbage
    let s3 := { s2 with garbage := s2.garbage + new_gbg }
    let sent := decide (s2.cthreshold < gbg_sz)
    if new_gbg = r.1.len then ⟨s3, sent, some (.KeyNotFound key)⟩
    else ⟨s3, sent, none⟩

/-- The observable steps of `KvStore::fetch`, in execution order. -/
inductive FEvent where
  | openReader : Nat → FEvent
  | decodeRec : Nat → Nat → FEvent
  | pruneCache : FEvent
deriving DecidableEq, Repr

/-- Result of `KvStore::fetch`: new handle state, decoded record or error,
and the ordered trace of its steps. -/
structure FetchOut where
  store : Store
  res : Except KvsError Command
  events : List FEvent
deriving Repr

/-- Insert an id into the sorted reader-cache key list (`BTreeMap` insert). -/
def fdsInsert : List Nat → Nat → List Nat
  | [], id => [id]
  | i :: rest, id =>
    if id < i then id :: i :: rest
    else if id = i then i :: rest
    else i :: fdsInsert rest id

/-- `KvStore::update_fds`: `split_off(&lowest)` keeps only cache entries with
id at or above `lowest_id`. -/
def Store.update_fds (s : Store) : Store :=
  { s with fds := s.fds.filter fun i => decide (s.lowestId ≤ i) }

/-- `KvStore::fetch`: resolve the reader for `loc.id` from the per-handle
cache, opening and inserting it when absent; seek and decode one record; and
only afterwards, when a reader was opened, prune stale cache entries
(`update_fds` runs after `Command::from_reader`). -/
def Store.fetch (s : Store) (loc : Location) : FetchOut :=
  if s.fds.contains loc.id then
    match fileGet s.files loc.id with
    | none => ⟨s, .error .IoErr, [.decodeRec loc.id loc.offset]⟩
    | some f =>
      let res := match decodeAt f loc.offset with
        | some c => .ok c
        | none => .error .CodecErr
      ⟨s, res, [.decodeRec loc.id loc.offset]⟩
  else
    match fileGet s.files loc.id with
    | none => ⟨s, .error .IoErr, [.openReader loc.id]⟩
    | some f =>
      let s1 := { s with fds := fdsInsert s.fds loc.id }
      let res := match decodeAt f loc.offset with
        | some c => .ok c
        | none => .error .CodecErr
      ⟨s1.update_fds, res, [.openReader loc.id, .decodeRec loc.id loc.offset, .pruneCache]⟩

/-- The fetch step as the specification words it (spec §4.4 get, step 2):
when the reader is absent, prune the stale cache entries FIRST, then open and
insert the reader, then decode.  Kept only to compare with `Store.fetch`. -/
def Store.fetchSpecOrdered (s : Store) (loc : Location) : FetchOut :=
  if s.fds.contains loc.id then
    match fileGet s.files loc.id with
    | none => ⟨s, .error .IoErr, [.decodeRec loc.id loc.offset]⟩
    | some f =>
      let res := match decodeAt f loc.offset with
        | some c => .ok c
        | none => .error .CodecErr
      ⟨s, res, [.decodeRec loc.id loc.offset]⟩
  else
    let s1 := s.update_fds
    match fileGet s1.files loc.id with
    | none => ⟨s1, .error .IoErr, [.pruneCache, .openReader loc.id]⟩
    | some f =>
      let s2 := { s1 with fds := fdsInsert s1.fds loc.id }
      let res := match decodeAt f loc.offset with
        | some c => .ok c
        | none => .error .CodecErr
      ⟨s2, res, [.pruneCache, .openReader loc.id, .decodeRec loc.id loc.offset]⟩

/-- `KvStore::get`: index probe, fetch, and the `Set`-with-equal-key check. -/
def Store.get (s : Store) (key : Key) : Store × Except KvsError (Option Value) :=
  match idxLookup s.index key with
  | none => (s, .ok none)
  | some info =>
    let fo := s.fetch info.loc
    match fo.res with
    | .error e => (fo.store, .error e)
    | .ok (.Set k v) =>
      if k = key then (fo.store, .ok (some v))
      else (fo.store, .error (.UnexpectCmd ("Set(" ++ k ++ ", " ++ v ++ ")")
        ("Set(" ++ key ++ ", _)")))
    | .ok (.Rm k) =>
      (fo.store, .error (.UnexpectCmd ("Rm(" ++ k ++ ")") ("Set(" ++ key ++ ", _)")))

/-- One iteration of the loop in `KvStore::merge`: seek to the snapshot
locator, decode, require a `Set`, re-encode it at the end of the merge temp
file and record the new locator. -/
def mergeStep (files : Files) (mid : Nat) (acc : Except KvsError (Idx × SegFile))
    (info : CmdInfo) : Except KvsError (Idx × SegFile) :=
  match acc with
  | .error e => .error e
  | .ok (idx, temp) =>
    match fileGet files info.loc.id with
    | none => .error .IoErr
    | some f =>
      match decodeAt f info.loc.offset with
      | none => .error .CodecErr
      | some (.Set k v) =>
        let c := Command.Set k v
        let offset := fileSize temp
        .ok ((idxInsert idx k (CmdInfo.mk' mid offset (serLen c))).2, temp ++ [c])
      | some (.Rm k) =>
        .error (.UnexpectCmd ("Rm(" ++ k ++ ")") "Set(_, _)")

/-- `KvStore::merge` without the final rename: fold the snapshot locators
into the merge temp file and the merge index. -/
def mergeRun (files : Files) (mid : Nat) (vec : List CmdInfo) :
    Except KvsError (Idx × SegFile) :=
  vec.foldl (mergeStep files mid) (.ok ([], []))

/-- One iteration of the compare-and-set loop after `merge` in
`KvStore::compact`: overwrite the binding if it still points below the new
active id, otherwise count the merge copy as garbage. -/
def applyMergeStep (active_id : Nat) (acc : Idx × Nat) (p : Key × CmdInfo) : Idx × Nat :=
  match idxLookup acc.1 p.1 with
  | some rval =>
    if rval.loc.id < active_id then ((idxInsert acc.1 p.1 p.2).2, acc.2)
    else (acc.1, acc.2 + p.2.len)
  | none => (acc.1, acc.2 + p.2.len)

/-- The whole compare-and-set loop of `KvStore::compact` (new garbage from
stale merge copies accumulated on the side). -/
def applyMerge (idx : Idx) (active_id : Nat) (midx : Idx) : Idx × Nat :=
  midx.foldl (applyMergeStep active_id) (idx, 0)

/-- The externally observable ordering inside `KvStore::compact`:
the store of `merge_id` into `lowest_id` and each file-deletion attempt. -/
inductive CEvent where
  | storeLowest : Nat → CEvent
  | deleteFile : Nat → CEvent
deriving DecidableEq, Repr

/-- Result of `KvStore::compact`: new state, error if the pass was abandoned,
and the ordered trace of lowest-id store and deletion attempts. -/
structure CompactOut where
  store : Store
  err : Option KvsError
  events : List CEvent
deriving Repr

/-- `KvStore::compact`, sequential view (the `try_lock` succeeds): roll the
active segment to `active_id = old + 2`, zero the garbage counter, snapshot
the index below `merge_id = old + 1`, merge the survivors into
`<merge_id>.data`, compare-and-set the rewritten locators, store `merge_id`
into `lowest_id`, and then delete every `<id>.data` for id in
`[old lowest, merge_id)`. -/
def Store.compact (s : Store) : CompactOut :=
  let merge_id := s.activeId + 1
  let active_id := merge_id + 1
  let s1 := { s with activeId := active_id,
                     files := filesSet s.files active_id [],
                     garbage := 0 }
  let vec := (s.index.filter fun p => decide (p.2.loc.id < merge_id)).map Prod.snd
  let merged : Except KvsError (Idx × Files) :=
    if vec.isEmpty then .ok ([], s1.files)
    else
      match mergeRun s1.files merge_id vec with
      | .error e => .error e
      | .ok (midx, temp) => .ok (midx, filesSet s1.files merge_id temp)
  match merged with
  | .error e => ⟨s1, some e, []⟩
  | .ok (midx, files2) =>
    let am := applyMerge s1.index active_id midx
    let low := s1.lowestId
    ⟨{ s1 with files := filesDelRange files2 low merge_id,
               index := am.1,
               garbage := s1.garbage + am.2,
               lowestId := merge_id },
     none,
     .storeLowest merge_id :: (List.range' low (merge_id - low)).map .deleteFile⟩

/-- One record of the load loop in `KvStoreBuilder::load_index`: stream
offsets advance by the encoded length; a `Set` installs a locator (counting a
superseded binding as garbage), a `Rm` drops the binding and counts both the
dropped record and the tombstone as garbage. -/
def replayFile (id : Nat) (acc : Idx × Nat) (offset : Nat) : SegFile → Idx × Nat
  | [] => acc
  | c :: rest =>
    let next := offset + serLen c
    match c with
    | .Set k _ =>
      let ins := idxInsert acc.1 k (CmdInfo.mk' id offset (serLen c))
      replayFile id (ins.2, acc.2 + (ins.1.map CmdInfo.len).getD 0) next rest
    | .Rm k =>
      let rm := idxRemove acc.1 k
      replayFile id (rm.2, acc.2 + (rm.1.map CmdInfo.len).getD 0 + serLen c) next rest

/-- `KvStoreBuilder::load_index`: stream-decode every data file in ascending
id order, building the index and the initial garbage count. -/
def load_index (files : Files) : Idx × Nat :=
  files.foldl (fun acc p => replayFile p.1 acc 0 p.2) ([], 0)

/-- The `meta` path as seen by `KvStoreBuilder::read_meta`: absent, a regular
file with some content, or a directory. -/
inductive MetaState where
  | absent : MetaState
  | file : String → MetaState
  | dir : MetaState
deriving DecidableEq, Repr

/-- Outcome of `KvStoreBuilder::build`: a store, an error, or a panic (the
`unwrap` calls on the file-id list). -/
inductive BuildOut where
  | ok : Store → BuildOut
  | err : KvsError → BuildOut
  | panicked : BuildOut
deriving DecidableEq, Repr

/-- The fresh store created by `KvStoreBuilder::build` when `meta` is absent:
write `meta`, create `1.data` as the initial active, empty index. -/
def Store.mkInit (c : Nat) : Store :=
  { files := [(1, [])], activeId := 1, index := [], garbage := 0,
    lowestId := 1, fds := [1], cthreshold := c }

/-- `KvStoreBuilder::build`: reject a bad `meta`; on a matching `meta` take
the sorted data-file list, whose FIRST id (`nth(0).unwrap()` — a panic when
the list is empty) becomes `lowest_id` and whose last id becomes the active,
then replay the files through `load_index`; on an absent `meta` initialise
the directory. -/
def build (meta : MetaState) (files : Files) (c : Nat) : BuildOut :=
  match meta with
  | .dir => .err .InvalidMeta
  | .file content =>
    if content ≠ "kvs" then .err .InvalidMeta
    else
      match files with
      | [] => .panicked
      | p :: rest =>
        let li := load_index (p :: rest)
        .ok { files := p :: rest,
              activeId := ((p :: rest).getLast (List.cons_ne_nil p rest)).1,
              index := li.1, garbage := li.2,
              lowestId := p.1,
              fds := (p :: rest).map Prod.fst,
              cthreshold := c }
  | .absent => .ok (Store.mkInit c)

/-- The `OpenOptions` flags used by file.rs. -/
structure OpenOpts where
  write : Bool
  create : Bool
  create_new : Bool
  truncate : Bool
deriving DecidableEq, Repr

/-- The options used by `file::new` (file.rs lines 26-34):
`write(true).create(true).truncate(true)` — `create_new` is never set. -/
def fileNewOpts : OpenOpts := { write := true, create := true, create_new := false, truncate := true }

/-- `OpenOptions::open` against a file that currently has content `existing`
(or does not exist): `create_new` fails on an existing file, `truncate`
empties it, `create` makes a missing file empty. -/
def openWith (o : OpenOpts) (existing : Option SegFile) : Except KvsError SegFile :=
  match existing with
  | some f => if o.create_new then .error .IoErr else if o.truncate then .ok [] else .ok f
  | none => if o.create || o.create_new then .ok [] else .error .IoErr

/-- The pure result a `get` is heading for: the value of the record the index
points at (the abstraction the correctness proofs go through). -/
def Store.visible (s : Store) (k : Key) : Option Value :=
  match idxLookup s.index k with
  | none => none
  | some info =>
    match fileDecode s.files info.loc with
    | some (.Set _ v) => some v
    | _ => none

/-- One public operation on a handle, for stating round-trip claims. -/
inductive KvOp where
  | opSet : Key → Value → KvOp
  | opRemove : Key → KvOp
  | opCompact : KvOp
  | opGet : Key → KvOp
deriving DecidableEq, Repr

/-- Apply one operation, keeping the resulting state. -/
def applyOp (s : Store) : KvOp → Store
  | .opSet k v => (s.set k v).store
  | .opRemove k => (s.remove k).store
  | .opCompact => (s.compact).store
  | .opGet k => (s.get k).1

/-- Apply a sequence of operations from the left. -/
def applyOps (s : Store) (ops : List KvOp) : Store := ops.foldl applyOp s

/-- An operation that neither overwrites nor removes `key`. -/
def KvOp.avoids (o : KvOp) (key : Key) : Bool :=
  match o with
  | .opSet k _ => k != key
  | .opRemove k => k != key
  | .opCompact => true
  | .opGet _ => true

/-- A handle state exercising the reader-cache pruning path of `fetch`:
`lowest_id` has advanced to 5 while this handle's cache is empty and a stale
locator still points into segment 1, which is still on disk. -/
def staleReaderStore : Store :=
  { files := [(1, [Command.Set "k" "v"]), (5, [])], activeId := 5, index := [],
    garbage := 0, lowestId := 5, fds := [], cthreshold := COMPACT_THRESHOLD }

/-- States reachable by the public operations from a fresh store, including
closing the store and reopening the same directory (`reopen`). -/
inductive Reachable : Store → Prop
  | init (c : Nat) : Reachable (Store.mkInit c)
  | set (k : Key) (v : Value) {s : Store} : Reachable s → Reachable (Store.set s k v).store
  | remove (k : Key) {s : Store} : Reachable s → Reachable (Store.remove s k).store
  | compact {s : Store} : Reachable s → Reachable (Store.compact s).store
  | get (k : Key) {s : Store} : Reachable s → Reachable (Store.get s k).1
  | reopen (c : Nat) {s s' : Store} : Reachable s →
      build (.file "kvs") s.files c = .ok s' → Reachable s'

/-- The state invariant maintained by every reachable store: data files are
id-sorted, the active file exists and has the greatest id, no file id is
below `lowest_id`, the index has no duplicate keys, and replaying the data
files through `load_index` rebuilds exactly the current index. -/
structure Inv (s : Store) : Prop where
  sorted : List.Pairwise (· < ·) (s.files.map Prod.fst)
  active_mem : (fileGet s.files s.activeId).isSome
  active_max : ∀ p ∈ s.files, p.1 ≤ s.activeId
  low_le : ∀ p ∈ s.files, s.lowestId ≤ p.1
  nodup : (s.index.map Prod.fst).Nodup
  replay : ∀ k, idxLookup (load_index s.files).1 k = idxLookup s.index k

/-- Soundness of an index against the data files: every binding's locator
decodes to a `Set` record carrying the binding's own key, and the stored
length is that record's encoded length. -/
def ReplayOK (files : Files) (idx : Idx) : Prop :=
  ∀ k info, idxLookup idx k = some info →
    ∃ v, fileDecode files info.loc = some (.Set k v) ∧ info.len = serLen (.Set k v)

/-! ### Byte-length and stream-decode lemmas -/

theorem serLen_pos (c : Command) : 0 < serLen c := by
  cases c <;> simp [serLen]

@[simp] theorem fileSize_nil : fileSize [] = 0 := rfl

@[simp] theorem fileSize_cons (c : Command) (f : SegFile) :
    fileSize (c :: f) = serLen c + fileSize f := by
  simp [fileSize]

theorem fileSize_append (f g : SegFile) : fileSize (f ++ g) = fileSize f + fileSize g := by
  simp [fileSize]

theorem decodeFrom_end (f : SegFile) (pos : Nat) :
    decodeFrom f pos (pos + fileSize f) = none := by
  induction f generalizing pos with
  | nil => rfl
  | cons c rest ih =>
    have hp := serLen_pos c
    simp only [decodeFrom, fileSize_cons]
    rw [if_neg (by omega)]
    have h : pos + (serLen c + fileSize rest) = (pos + serLen c) + fileSize rest := by omega
    rw [h]
    exact ih (pos + serLen c)

theorem decodeFrom_append_some (f g : SegFile) (pos target : Nat) (c : Command)
    (h : decodeFrom f pos target = some c) :
    decodeFrom (f ++ g) pos target = some c := by
  induction f generalizing pos with
  | nil => simp [decodeFrom] at h
  | cons d rest ih =>
    simp only [decodeFrom, List.cons_append] at h ⊢
    by_cases hp : pos = target
    · simpa [hp] using h
    · rw [if_neg hp] at h ⊢
      exact ih (pos + serLen d) h

theorem decodeFrom_append_none (f g : SegFile) (pos target : Nat)
    (h : decodeFrom f pos target = none) :
    decodeFrom (f ++ g) pos target = decodeFrom g (pos + fileSize f) target := by
  induction f generalizing pos with
  | nil => simp [decodeFrom]
  | cons d rest ih =>
    simp only [decodeFrom, List.cons_append] at h ⊢
    by_cases hp : pos = target
    · simp [hp] at h
    · rw [if_neg hp] at h ⊢
      have hrec := ih (pos + serLen d) h
      rw [fileSize_cons]
      have harith : pos + (serLen d + fileSize rest) = (pos + serLen d) + fileSize rest := by
        omega
      rw [harith]
      exact hrec

theorem decodeAt_append_self (f : SegFile) (c : Command) :
    decodeAt (f ++ [c]) (fileSize f) = some c := by
  unfold decodeAt
  rw [decodeFrom_append_none f [c] 0 (fileSize f)
    (by simpa using decodeFrom_end f 0)]
  simp [decodeFrom]

theorem decodeAt_append_some (f g : SegFile) (t : Nat) (c : Command)
    (h : decodeAt f t = some c) : decodeAt (f ++ g) t = some c :=
  decodeFrom_append_some f g 0 t c h

/-! ### Index (association map) lemmas -/

@[simp] theorem idxLookup_nil (k : Key) : idxLookup [] k = none := rfl

theorem idxLookup_cons (p : Key × CmdInfo) (m : Idx) (k : Key) :
    idxLookup (p :: m) k = if p.1 = k then some p.2 else idxLookup m k := by
  by_cases h : p.1 = k <;> simp [idxLookup, List.find?_cons, h]

theorem idxLookup_erase (m : Idx) (k k' : Key) :
    idxLookup (idxErase m k) k' = if k' = k then none else idxLookup m k' := by
  induction m with
  | nil => simp [idxErase]
  | cons p rest ih =>
    by_cases hpk : p.1 = k
    · have hd : idxErase (p :: rest) k = idxErase rest k := by
        simp [idxErase, List.filter_cons, hpk]
      rw [hd, ih]
      by_cases h : k' = k
      · simp [h]
      · have hp : p.1 ≠ k' := by rw [hpk]; exact fun he => h he.symm
        rw [if_neg h, if_neg h, idxLookup_cons, if_neg hp]
    · have hd : idxErase (p :: rest) k = p :: idxErase rest k := by
        simp [idxErase, List.filter_cons, hpk]
      rw [hd]
      simp only [idxLookup_cons]
      by_cases hp : p.1 = k'
      · have hk : ¬ k' = k := fun he => hpk (hp.trans he)
        simp [hp, hk]
      · simp [hp, ih]

theorem idxLookup_insert (m : Idx) (k k' : Key) (v : CmdInfo) :
    idxLookup (idxInsert m k v).2 k' = if k' = k then some v else idxLookup m k' := by
  unfold idxInsert
  rw [idxLookup_cons]
  by_cases h : k' = k
  · simp [h]
  · rw [if_neg (fun hk => h hk.symm), if_neg h, idxLookup_erase, if_neg h]

theorem idxLookup_idxRemove (m : Idx) (k k' : Key) :
    idxLookup (idxRemove m k).2 k' = if k' = k then none else idxLookup m k' := by
  unfold idxRemove
  exact idxLookup_erase m k k'

theorem idxErase_nodup (m : Idx) (k : Key) (h : (m.map Prod.fst).Nodup) :
    ((idxErase m k).map Prod.fst).Nodup := by
  exact ((List.filter_sublist m).map Prod.fst).nodup h

theorem not_mem_keys_erase (m : Idx) (k : Key) : k ∉ (idxErase m k).map Prod.fst := by
  intro hmem
  rcases List.mem_map.mp hmem with ⟨p, hp, hpk⟩
  have := List.of_mem_filter hp
  simp [hpk] at this

theorem idxInsert_nodup (m : Idx) (k : Key) (v : CmdInfo) (h : (m.map Prod.fst).Nodup) :
    (((idxInsert m k v).2).map Prod.fst).Nodup := by
  unfold idxInsert
  simp only [List.map_cons]
  exact List.Nodup.cons (not_mem_keys_erase m k) (idxErase_nodup m k h)

theorem idxLookup_of_mem (m : Idx) (hnd : (m.map Prod.fst).Nodup) (p : Key × CmdInfo)
    (hp : p ∈ m) : idxLookup m p.1 = some p.2 := by
  induction m with
  | nil => cases hp
  | cons q rest ih =>
    simp only [List.map_cons, List.nodup_cons] at hnd
    rcases List.mem_cons.mp hp with h | h
    · subst h; rw [idxLookup_cons, if_pos rfl]
    · have hq : q.1 ≠ p.1 := by
        intro he
        exact hnd.1 (he ▸ List.mem_map.mpr ⟨p, h, rfl⟩)
      rw [idxLookup_cons, if_neg hq]
      exact ih hnd.2 h

theorem idxLookup_isSome_of_mem_keys (m : Idx) (k : Key) (h : k ∈ m.map Prod.fst) :
    (idxLookup m k).isSome := by
  induction m with
  | nil => simp at h
  | cons q rest ih =>
    rw [idxLookup_cons]
    by_cases hq : q.1 = k
    · simp [hq]
    · rw [if_neg hq]
      simp only [List.map_cons, List.mem_cons] at h
      rcases h with h | h
      · exact absurd h.symm hq
      · exact ih h

theorem mem_keys_of_idxLookup_isSome (m : Idx) (k : Key) (h : (idxLookup m k).isSome) :
    k ∈ m.map Prod.fst := by
  induction m with
  | nil => simp [idxLookup] at h
  | cons q rest ih =>
    rw [idxLookup_cons] at h
    by_cases hq : q.1 = k
    · simp [hq]
    · rw [if_neg hq] at h
      simp [ih h]

/-! ### Data-file map lemmas -/

@[simp] theorem fileGet_cons (i : Nat) (g : SegFile) (rest : Files) (id : Nat) :
    fileGet ((i, g) :: rest) id = if id = i then some g else fileGet rest id := rfl

theorem filesSet_cons (i : Nat) (g : SegFile) (rest : Files) (id : Nat) (f : SegFile) :
    filesSet ((i, g) :: rest) id f =
      if id < i then (id, f) :: (i, g) :: rest
      else if id = i then (id, f) :: rest
      else (i, g) :: filesSet rest id f := rfl

theorem fileGet_of_mem_nodup (files : Files) (hnd : (files.map Prod.fst).Nodup)
    (p : Nat × SegFile) (hp : p ∈ files) : fileGet files p.1 = some p.2 := by
  induction files with
  | nil => cases hp
  | cons q rest ih =>
    obtain ⟨qi, qf⟩ := q
    simp only [List.map_cons, List.nodup_cons] at hnd
    rcases List.mem_cons.mp hp with h | h
    · subst h; simp
    · have hq : p.1 ≠ qi := by
        intro he
        exact hnd.1 (he ▸ List.mem_map.mpr ⟨p, h, rfl⟩)
      rw [fileGet_cons, if_neg hq]
      exact ih hnd.2 h

theorem fileGet_some_mem (files : Files) (id : Nat) (f : SegFile)
    (h : fileGet files id = some f) : (id, f) ∈ files := by
  induction files with
  | nil => simp [fileGet] at h
  | cons q rest ih =>
    obtain ⟨qi, qf⟩ := q
    rw [fileGet_cons] at h
    by_cases hq : id = qi
    · rw [if_pos hq] at h
      injection h with h2
      subst hq
      subst h2
      exact List.mem_cons_self _ rest
    · rw [if_neg hq] at h
      exact List.mem_cons_of_mem _ (ih h)

theorem fileGet_filesSet_self (files : Files) (id : Nat) (f : SegFile) :
    fileGet (filesSet files id f) id = some f := by
  induction files with
  | nil => simp [filesSet]
  | cons q rest ih =>
    obtain ⟨qi, qf⟩ := q
    rw [filesSet_cons]
    by_cases h1 : id < qi
    · simp [h1]
    · rw [if_neg h1]
      by_cases h2 : id = qi
      · simp [h2]
      · rw [if_neg h2, fileGet_cons, if_neg h2]
        exact ih

theorem fileGet_filesSet_ne (files : Files) (id id' : Nat) (f : SegFile) (h : id' ≠ id) :
    fileGet (filesSet files id f) id' = fileGet files id' := by
  induction files with
  | nil => simp [filesSet, fileGet, h]
  | cons q rest ih =>
    obtain ⟨qi, qf⟩ := q
    rw [filesSet_cons]
    by_cases h1 : id < qi
    · rw [if_pos h1, fileGet_cons, if_neg h, fileGet_cons]
    · rw [if_neg h1]
      by_cases h2 : id = qi
      · subst h2
        rw [if_pos rfl, fileGet_cons, if_neg h, fileGet_cons, if_neg h]
      · rw [if_neg h2, fileGet_cons, fileGet_cons]
        by_cases h3 : id' = qi
        · simp [h3]
        · rw [if_neg h3, if_neg h3]
          exact ih

theorem files_eq_append_last (files : Files) (a : Nat) (f : SegFile)
    (hmem : fileGet files a = some f)
    (hmax : ∀ p ∈ files, p.1 ≤ a)
    (hs : List.Pairwise (· < ·) (files.map Prod.fst)) :
    ∃ fs, files = fs ++ [(a, f)] ∧ ∀ p ∈ fs, p.1 < a := by
  induction files with
  | nil => simp [fileGet] at hmem
  | cons q rest ih =>
    obtain ⟨qi, qf⟩ := q
    simp only [List.map_cons, List.pairwise_cons] at hs
    by_cases hq : a = qi
    · subst hq
      rw [fileGet_cons, if_pos rfl] at hmem
      injection hmem with hmem
      subst hmem
      have hrest : rest = [] := by
        cases rest with
        | nil => rfl
        | cons r rs =>
          exfalso
          have hra : r.1 ≤ a := hmax r (by simp)
          have hlt : a < r.1 := hs.1 r.1 (List.mem_map.mpr ⟨r, by simp, rfl⟩)
          omega
      subst hrest
      exact ⟨[], by simp, by simp⟩
    · have hmem' : fileGet rest a = some f := by
        rw [fileGet_cons, if_neg hq] at hmem
        exact hmem
      rcases ih hmem' (fun p hp => hmax p (List.mem_cons_of_mem _ hp)) hs.2 with
        ⟨fs, hfs, hlt⟩
      refine ⟨(qi, qf) :: fs, by simp [hfs], ?_⟩
      intro p hp
      rcases List.mem_cons.mp hp with h | h
      · rw [h]
        have h1 : (qi, qf).1 ≤ a := hmax (qi, qf) (by simp)
        exact lt_of_le_of_ne h1 (fun he => hq (by simpa using he.symm))
      · exact hlt p h

theorem filesSet_append_gt (fs : Files) (id : Nat) (f : SegFile)
    (h : ∀ p ∈ fs, p.1 < id) : filesSet fs id f = fs ++ [(id, f)] := by
  induction fs with
  | nil => rfl
  | cons q rest ih =>
    obtain ⟨qi, qf⟩ := q
    have hq : qi < id := h (qi, qf) (by simp)
    rw [filesSet_cons, if_neg (show ¬ id < qi by omega), if_neg (show ¬ id = qi by omega),
      ih (fun p hp => h p (List.mem_cons_of_mem _ hp))]
    simp

theorem filesSet_append_last (fs : Files) (a : Nat) (f g : SegFile)
    (h : ∀ p ∈ fs, p.1 < a) :
    filesSet (fs ++ [(a, f)]) a g = fs ++ [(a, g)] := by
  induction fs with
  | nil => simp [filesSet]
  | cons q rest ih =>
    obtain ⟨qi, qf⟩ := q
    have hq : qi < a := h (qi, qf) (by simp)
    rw [List.cons_append, filesSet_cons, if_neg (show ¬ a < qi by omega),
      if_neg (show ¬ a = qi by omega),
      ih (fun p hp => h p (List.mem_cons_of_mem _ hp))]
    rfl

theorem filesSet_append_mid (fs : Files) (mid aid : Nat) (t g : SegFile)
    (h : ∀ p ∈ fs, p.1 < mid) (hlt : mid < aid) :
    filesSet (fs ++ [(aid, g)]) mid t = fs ++ [(mid, t), (aid, g)] := by
  induction fs with
  | nil => simp [filesSet, hlt]
  | cons q rest ih =>
    obtain ⟨qi, qf⟩ := q
    have hq : qi < mid := h (qi, qf) (by simp)
    rw [List.cons_append, filesSet_cons, if_neg (show ¬ mid < qi by omega),
      if_neg (show ¬ mid = qi by omega),
      ih (fun p hp => h p (List.mem_cons_of_mem _ hp))]
    rfl

/-! ### Replay (load_index) lemmas -/

theorem decodeAt_middle (done : SegFile) (c : Command) (rest : SegFile) :
    decodeAt (done ++ c :: rest) (fileSize done) = some c := by
  unfold decodeAt
  rw [decodeFrom_append_none done (c :: rest) 0 (fileSize done)
    (by simpa using decodeFrom_end done 0)]
  simp [decodeFrom]

@[simp] theorem replayFile_nil (id : Nat) (acc : Idx × Nat) (off : Nat) :
    replayFile id acc off [] = acc := rfl

theorem replayFile_append (id : Nat) (acc : Idx × Nat) (off : Nat) (l1 l2 : SegFile) :
    replayFile id acc off (l1 ++ l2) =
      replayFile id (replayFile id acc off l1) (off + fileSize l1) l2 := by
  induction l1 generalizing acc off with
  | nil => simp
  | cons c rest ih =>
    cases c with
    | Set k v =>
      simp only [List.cons_append, replayFile, fileSize_cons]
      have h : off + (serLen (Command.Set k v) + fileSize rest) =
          (off + serLen (Command.Set k v)) + fileSize rest := by omega
      rw [h]
      exact ih _ _
    | Rm k =>
      simp only [List.cons_append, replayFile, fileSize_cons]
      have h : off + (serLen (Command.Rm k) + fileSize rest) =
          (off + serLen (Command.Rm k)) + fileSize rest := by omega
      rw [h]
      exact ih _ _

theorem load_index_eq_foldl (files : Files) :
    load_index files = files.foldl (fun acc p => replayFile p.1 acc 0 p.2) ([], 0) := rfl

theorem replayFile_nodup (id : Nat) (acc : Idx × Nat) (off : Nat) (f : SegFile)
    (h : (acc.1.map Prod.fst).Nodup) :
    ((replayFile id acc off f).1.map Prod.fst).Nodup := by
  induction f generalizing acc off with
  | nil => exact h
  | cons c rest ih =>
    cases c with
    | Set k v =>
      simp only [replayFile]
      exact ih _ _ (idxInsert_nodup _ _ _ h)
    | Rm k =>
      simp only [replayFile]
      exact ih _ _ (idxErase_nodup _ _ h)

theorem load_index_nodup (files : Files) : ((load_index files).1.map Prod.fst).Nodup := by
  have main : ∀ (fs : List (Nat × SegFile)) (acc : Idx × Nat), (acc.1.map Prod.fst).Nodup →
      (((fs.foldl (fun a p => replayFile p.1 a 0 p.2) acc)).1.map Prod.fst).Nodup := by
    intro fs
    induction fs with
    | nil => intro acc h; exact h
    | cons p rest ih =>
      intro acc h
      exact ih _ (replayFile_nodup _ _ _ _ h)
  rw [load_index_eq_foldl]
  exact main files ([], 0) (by simp)

theorem replayOK_erase (files : Files) (idx : Idx) (k : Key) (h : ReplayOK files idx) :
    ReplayOK files (idxErase idx k) := by
  intro k' info hl
  rw [show idxErase idx k = (idxRemove idx k).2 from rfl, idxLookup_idxRemove] at hl
  by_cases hk : k' = k
  · rw [if_pos hk] at hl; cases hl
  · rw [if_neg hk] at hl; exact h k' info hl

theorem replayFile_preserves_ok (files : Files) (id : Nat) (f : SegFile)
    (hf : fileGet files id = some f) :
    ∀ (todo done : SegFile) (acc : Idx × Nat), f = done ++ todo →
      ReplayOK files acc.1 →
      ReplayOK files (replayFile id acc (fileSize done) todo).1 := by
  intro todo
  induction todo with
  | nil => intro done acc _ hok; simpa using hok
  | cons c rest ih =>
    intro done acc hsplit hok
    have hoff : ∀ d : Command, fileSize (done ++ [d]) = fileSize done + serLen d := by
      intro d
      rw [fileSize_append, fileSize_cons, fileSize_nil]
      omega
    cases c with
    | Set k v =>
      simp only [replayFile]
      rw [show fileSize done + serLen (Command.Set k v) =
        fileSize (done ++ [Command.Set k v]) from (hoff _).symm]
      refine ih (done ++ [Command.Set k v]) _ (by rw [hsplit]; simp) ?_
      intro k' info hl
      rw [idxLookup_insert] at hl
      by_cases hk : k' = k
      · rw [if_pos hk] at hl
        injection hl with hl
        subst hl
        subst hk
        refine ⟨v, ?_, rfl⟩
        unfold fileDecode
        simp only [CmdInfo.mk']
        rw [hf]
        simp only [Option.some_bind]
        rw [hsplit]
        exact decodeAt_middle done (Command.Set k' v) rest
      · rw [if_neg hk] at hl
        exact hok k' info hl
    | Rm k =>
      simp only [replayFile]
      rw [show fileSize done + serLen (Command.Rm k) =
        fileSize (done ++ [Command.Rm k]) from (hoff _).symm]
      refine ih (done ++ [Command.Rm k]) _ (by rw [hsplit]; simp) ?_
      exact replayOK_erase files acc.1 k hok

theorem load_index_sound (files : Files) (hnd : (files.map Prod.fst).Nodup) :
    ReplayOK files (load_index files).1 := by
  have main : ∀ (fs : List (Nat × SegFile)) (acc : Idx × Nat),
      (∀ p ∈ fs, fileGet files p.1 = some p.2) →
      ReplayOK files acc.1 →
      ReplayOK files ((fs.foldl (fun a p => replayFile p.1 a 0 p.2) acc)).1 := by
    intro fs
    induction fs with
    | nil => intro acc _ hok; exact hok
    | cons p rest ih =>
      intro acc hmem hok
      refine ih _ (fun q hq => hmem q (List.mem_cons_of_mem _ hq)) ?_
      have hstep := replayFile_preserves_ok files p.1 p.2
        (hmem p (List.mem_cons_self _ _)) p.2 [] acc (by simp) hok
      simpa using hstep
  rw [load_index_eq_foldl]
  refine main files ([], 0) (fun p hp => fileGet_of_mem_nodup files hnd p hp) ?_
  intro k info h
  simp [idxLookup] at h

theorem pairwise_lt_nodup (l : List Nat) (h : List.Pairwise (· < ·) l) : l.Nodup :=
  h.imp (fun hlt => Nat.ne_of_lt hlt)

theorem inv_decode (s : Store) (h : Inv s) (k : Key) (info : CmdInfo)
    (hl : idxLookup s.index k = some info) :
    ∃ v, fileDecode s.files info.loc = some (.Set k v) ∧ info.len = serLen (.Set k v) :=
  load_index_sound s.files (pairwise_lt_nodup _ h.sorted) k info
    (by rw [h.replay k]; exact hl)

theorem inv_loc_id (s : Store) (h : Inv s) (k : Key) (info : CmdInfo)
    (hl : idxLookup s.index k = some info) :
    s.lowestId ≤ info.loc.id ∧ info.loc.id ≤ s.activeId := by
  rcases inv_decode s h k info hl with ⟨v, hdec, _⟩
  unfold fileDecode at hdec
  cases hg : fileGet s.files info.loc.id with
  | none => rw [hg] at hdec; cases hdec
  | some f =>
    have hmem := fileGet_some_mem _ _ _ hg
    exact ⟨h.low_le _ hmem, h.active_max _ hmem⟩

theorem inv_len_pos (s : Store) (h : Inv s) (k : Key) (info : CmdInfo)
    (hl : idxLookup s.index k = some info) : 0 < info.len := by
  rcases inv_decode s h k info hl with ⟨v, _, hlen⟩
  rw [hlen]
  exact serLen_pos _

/-! ### Operation shape lemmas -/

theorem load_index_append_last (fs : Files) (a : Nat) (g : SegFile) :
    load_index (fs ++ [(a, g)]) = replayFile a (load_index fs) 0 g := by
  simp only [load_index_eq_foldl]
  rw [List.foldl_append]
  rfl

theorem set_store_fields (s : Store) (k : Key) (v : Value) :
    ((s.set k v).store.files = filesSet s.files s.activeId (s.activeFile ++ [Command.Set k v])) ∧
    ((s.set k v).store.index =
      (idxInsert s.index k (CmdInfo.mk' s.activeId (fileSize s.activeFile)
        (serLen (Command.Set k v)))).2) ∧
    ((s.set k v).store.activeId = s.activeId) ∧
    ((s.set k v).store.lowestId = s.lowestId) ∧
    ((s.set k v).store.fds = s.fds) ∧
    ((s.set k v).store.cthreshold = s.cthreshold) ∧
    ((s.set k v).err = none) := by
  simp only [Store.set, Store.append]
  split
  · exact ⟨rfl, rfl, rfl, rfl, rfl, rfl, rfl⟩
  · split
    · exact ⟨rfl, rfl, rfl, rfl, rfl, rfl, rfl⟩
    · exact ⟨rfl, rfl, rfl, rfl, rfl, rfl, rfl⟩

theorem remove_absent (s : Store) (k : Key) (h : idxLookup s.index k = none) :
    s.remove k = ⟨s, false, some (.KeyNotFound k)⟩ := by
  unfold Store.remove
  rw [if_pos (by simp [h])]

theorem remove_store_fields (s : Store) (k : Key) (hk : (idxLookup s.index k).isSome) :
    ((s.remove k).store.files = filesSet s.files s.activeId (s.activeFile ++ [Command.Rm k])) ∧
    ((s.remove k).store.index = idxErase s.index k) ∧
    ((s.remove k).store.activeId = s.activeId) ∧
    ((s.remove k).store.lowestId = s.lowestId) ∧
    ((s.remove k).store.fds = s.fds) ∧
    ((s.remove k).store.cthreshold = s.cthreshold) := by
  simp only [Store.remove]
  rw [if_neg (show ¬ (idxLookup s.index k).isNone = true by
    simp only [Option.isNone_iff_eq_none]
    exact Option.isSome_iff_ne_none.mp hk)]
  split
  · exact ⟨rfl, rfl, rfl, rfl, rfl, rfl⟩
  · exact ⟨rfl, rfl, rfl, rfl, rfl, rfl⟩

theorem fetch_store_fds_only (s : Store) (loc : Location) :
    ∃ l, (s.fetch loc).store = { s with fds := l } := by
  unfold Store.fetch Store.update_fds
  split
  · split
    · exact ⟨s.fds, rfl⟩
    · exact ⟨s.fds, rfl⟩
  · split
    · exact ⟨s.fds, rfl⟩
    · exact ⟨_, rfl⟩

theorem get_store_fds_only (s : Store) (k : Key) :
    ∃ l, (s.get k).1 = { s with fds := l } := by
  unfold Store.get
  cases hl : idxLookup s.index k with
  | none => exact ⟨s.fds, rfl⟩
  | some info =>
    obtain ⟨l, hfetch⟩ := fetch_store_fds_only s info.loc
    refine ⟨l, ?_⟩
    simp only []
    split <;> (try split) <;> simp [hfetch]

theorem inv_fds_irrelevant (s : Store) (l : List Nat) (h : Inv s) :
    Inv { s with fds := l } :=
  ⟨h.sorted, h.active_mem, h.active_max, h.low_le, h.nodup, h.replay⟩

/-! ### Invariant preservation -/

theorem inv_mkInit (c : Nat) : Inv (Store.mkInit c) := by
  refine ⟨?_, ?_, ?_, ?_, ?_, ?_⟩
  · simp [Store.mkInit]
  · simp [Store.mkInit, fileGet]
  · intro p hp
    simp only [Store.mkInit, List.mem_singleton] at hp
    simp [hp, Store.mkInit]
  · intro p hp
    simp only [Store.mkInit, List.mem_singleton] at hp
    simp [hp, Store.mkInit]
  · simp [Store.mkInit]
  · intro k
    simp [Store.mkInit, load_index, replayFile, idxLookup]

theorem inv_active_file (s : Store) (h : Inv s) :
    ∃ f0, fileGet s.files s.activeId = some f0 := by
  have ham := h.active_mem
  cases hg : fileGet s.files s.activeId with
  | none => rw [hg] at ham; cases ham
  | some f => exact ⟨f, rfl⟩

theorem inv_append_shape (s : Store) (h : Inv s) (c : Command) :
    ∃ fs f0, fileGet s.files s.activeId = some f0 ∧ s.activeFile = f0 ∧
      s.files = fs ++ [(s.activeId, f0)] ∧ (∀ p ∈ fs, p.1 < s.activeId) ∧
      filesSet s.files s.activeId (s.activeFile ++ [c]) =
        fs ++ [(s.activeId, f0 ++ [c])] := by
  obtain ⟨f0, hf0⟩ := inv_active_file s h
  have hAF : s.activeFile = f0 := by unfold Store.activeFile; rw [hf0]; rfl
  obtain ⟨fs, hdecomp, hlt⟩ :=
    files_eq_append_last s.files s.activeId f0 hf0 h.active_max h.sorted
  refine ⟨fs, f0, hf0, hAF, hdecomp, hlt, ?_⟩
  rw [hAF, hdecomp, filesSet_append_last fs _ _ _ hlt]

theorem inv_set (s : Store) (h : Inv s) (k : Key) (v : Value) : Inv (s.set k v).store := by
  obtain ⟨hfiles, hidx, hact, hlow, hfds, hth, _⟩ := set_store_fields s k v
  obtain ⟨fs, f0, hf0, hAF, hdecomp, hlt, hset⟩ :=
    inv_append_shape s h (Command.Set k v)
  have hfiles' : (s.set k v).store.files = fs ++ [(s.activeId, f0 ++ [Command.Set k v])] :=
    hfiles.trans hset
  refine ⟨?_, ?_, ?_, ?_, ?_, ?_⟩
  · rw [hfiles']
    have hmap : (fs ++ [(s.activeId, f0 ++ [Command.Set k v])]).map Prod.fst
        = (fs ++ [(s.activeId, f0)]).map Prod.fst := by simp
    rw [hmap, ← hdecomp]
    exact h.sorted
  · rw [hact, hfiles, fileGet_filesSet_self]
    rfl
  · intro p hp
    rw [hfiles'] at hp
    rw [hact]
    rcases List.mem_append.mp hp with hp | hp
    · exact Nat.le_of_lt (hlt p hp)
    · simp only [List.mem_singleton] at hp
      simp [hp]
  · intro p hp
    rw [hfiles'] at hp
    rw [hlow]
    rcases List.mem_append.mp hp with hp | hp
    · exact h.low_le p (hdecomp ▸ List.mem_append.mpr (Or.inl hp))
    · simp only [List.mem_singleton] at hp
      have : (s.activeId, f0) ∈ s.files := by
        rw [hdecomp]; exact List.mem_append.mpr (Or.inr (by simp))
      have hle := h.low_le _ this
      simp only [hp]
      exact hle
  · rw [hidx]
    exact idxInsert_nodup _ _ _ h.nodup
  · intro k'
    rw [hfiles', hidx, load_index_append_last]
    have hload : load_index s.files = replayFile s.activeId (load_index fs) 0 f0 := by
      rw [hdecomp, load_index_append_last]
    rw [replayFile_append, ← hload]
    simp only [replayFile, replayFile_nil]
    rw [idxLookup_insert, idxLookup_insert, hAF]
    by_cases hk : k' = k
    · simp [hk]
    · rw [if_neg hk, if_neg hk]
      exact h.replay k'

theorem inv_remove (s : Store) (h : Inv s) (k : Key) : Inv (s.remove k).store := by
  cases hl : idxLookup s.index k with
  | none => rw [remove_absent s k hl]; exact h
  | some info =>
    obtain ⟨hfiles, hidx, hact, hlow, hfds, hth⟩ :=
      remove_store_fields s k (by simp [hl])
    obtain ⟨fs, f0, hf0, hAF, hdecomp, hlt, hset⟩ :=
      inv_append_shape s h (Command.Rm k)
    have hfiles' : (s.remove k).store.files = fs ++ [(s.activeId, f0 ++ [Command.Rm k])] :=
      hfiles.trans hset
    refine ⟨?_, ?_, ?_, ?_, ?_, ?_⟩
    · rw [hfiles']
      have hmap : (fs ++ [(s.activeId, f0 ++ [Command.Rm k])]).map Prod.fst
          = (fs ++ [(s.activeId, f0)]).map Prod.fst := by simp
      rw [hmap, ← hdecomp]
      exact h.sorted
    · rw [hact, hfiles, fileGet_filesSet_self]
      rfl
    · intro p hp
      rw [hfiles'] at hp
      rw [hact]
      rcases List.mem_append.mp hp with hp | hp
      · exact Nat.le_of_lt (hlt p hp)
      · simp only [List.mem_singleton] at hp
        simp [hp]
    · intro p hp
      rw [hfiles'] at hp
      rw [hlow]
      rcases List.mem_append.mp hp with hp | hp
      · exact h.low_le p (hdecomp ▸ List.mem_append.mpr (Or.inl hp))
      · simp only [List.mem_singleton] at hp
        have hmem : (s.activeId, f0) ∈ s.files := by
          rw [hdecomp]; exact List.mem_append.mpr (Or.inr (by simp))
        have hle := h.low_le _ hmem
        simp only [hp]
        exact hle
    · rw [hidx]
      exact idxErase_nodup _ _ h.nodup
    · intro k'
      rw [hfiles', hidx, load_index_append_last]
      have hload : load_index s.files = replayFile s.activeId (load_index fs) 0 f0 := by
        rw [hdecomp, load_index_append_last]
      rw [replayFile_append, ← hload]
      simp only [replayFile, replayFile_nil]
      rw [show (idxRemove (load_index s.files).1 k).2 = idxErase (load_index s.files).1 k
        from rfl]
      rw [idxLookup_erase, idxLookup_erase]
      by_cases hk : k' = k
      · simp [hk]
      · rw [if_neg hk, if_neg hk]
        exact h.replay k'

theorem inv_get (s : Store) (h : Inv s) (k : Key) : Inv (s.get k).1 := by
  obtain ⟨l, hget⟩ := get_store_fds_only s k
  rw [hget]
  exact inv_fds_irrelevant s l h

/-! ### Compaction lemmas -/

theorem fileDecode_inv (files : Files) (loc : Location) (c : Command)
    (h : fileDecode files loc = some c) :
    ∃ f, fileGet files loc.id = some f ∧ decodeAt f loc.offset = some c := by
  unfold fileDecode at h
  cases hg : fileGet files loc.id with
  | none => rw [hg] at h; cases h
  | some f => rw [hg] at h; exact ⟨f, rfl, by simpa using h⟩

theorem mergeFold_sound (files : Files) (mid : Nat) :
    ∀ (l : Idx) (acc : Idx × SegFile),
      (∀ p ∈ l, ∃ v, fileDecode files p.2.loc = some (.Set p.1 v)) →
      (l.map Prod.fst).Nodup →
      ∃ idxN tempN,
        ((l.map Prod.snd).foldl (mergeStep files mid) (.ok acc) = .ok (idxN, tempN)) ∧
        (∃ extra, tempN = acc.2 ++ extra) ∧
        (∀ k, k ∉ l.map Prod.fst → idxLookup idxN k = idxLookup acc.1 k) ∧
        (∀ k info, idxLookup l k = some info →
          ∃ off v, idxLookup idxN k = some (CmdInfo.mk' mid off (serLen (Command.Set k v))) ∧
            fileDecode files info.loc = some (Command.Set k v) ∧
            decodeAt tempN off = some (Command.Set k v)) ∧
        ((acc.1.map Prod.fst).Nodup → (idxN.map Prod.fst).Nodup) ∧
        ((∀ k, idxLookup (replayFile mid ([], 0) 0 acc.2).1 k = idxLookup acc.1 k) →
          (∀ k, idxLookup (replayFile mid ([], 0) 0 tempN).1 k = idxLookup idxN k)) := by
  intro l
  induction l with
  | nil =>
    intro acc _ _
    refine ⟨acc.1, acc.2, rfl, ⟨[], by simp⟩, fun k _ => rfl, ?_, fun h => h, fun h => h⟩
    intro k info h
    exact Option.noConfusion h
  | cons p rest ih =>
    intro acc hdec hnd
    obtain ⟨k0, info0⟩ := p
    obtain ⟨a1, a2⟩ := acc
    simp only [List.map_cons, List.nodup_cons] at hnd
    rcases hdec (k0, info0) (List.mem_cons_self _ _) with ⟨v0, hv0⟩
    rcases fileDecode_inv files info0.loc _ hv0 with ⟨f0, hf0, hd0⟩
    have hstep : mergeStep files mid (.ok (a1, a2)) info0 =
        .ok ((idxInsert a1 k0 (CmdInfo.mk' mid (fileSize a2)
          (serLen (Command.Set k0 v0)))).2, a2 ++ [Command.Set k0 v0]) := by
      simp only [mergeStep, hf0, hd0]
    rcases ih ((idxInsert a1 k0 (CmdInfo.mk' mid (fileSize a2)
          (serLen (Command.Set k0 v0)))).2, a2 ++ [Command.Set k0 v0])
        (fun q hq => hdec q (List.mem_cons_of_mem _ hq)) hnd.2 with
      ⟨idxN, tempN, hfold, ⟨extra', htemp⟩, habsent, hmem, hnodup, hreplay⟩
    refine ⟨idxN, tempN, ?_, ?_, ?_, ?_, ?_, ?_⟩
    · simp only [List.map_cons, List.foldl_cons, hstep]
      exact hfold
    · refine ⟨Command.Set k0 v0 :: extra', ?_⟩
      rw [htemp]
      simp
    · intro k hk
      simp only [List.map_cons, List.mem_cons] at hk
      push_neg at hk
      rw [habsent k hk.2, idxLookup_insert, if_neg hk.1]
    · intro k info hlk
      rw [idxLookup_cons] at hlk
      by_cases hk : k0 = k
      · subst hk
        rw [if_pos rfl] at hlk
        injection hlk with hlk
        refine ⟨fileSize a2, v0, ?_, ?_, ?_⟩
        · rw [habsent k0 hnd.1, idxLookup_insert, if_pos rfl]
        · rw [← hlk]; exact hv0
        · rw [htemp, List.append_assoc]
          exact decodeAt_middle a2 (Command.Set k0 v0) (extra' )
      · rw [if_neg hk] at hlk
        exact hmem k info hlk
    · intro hn
      exact hnodup (idxInsert_nodup _ _ _ hn)
    · intro hbase
      refine hreplay ?_
      intro k
      rw [replayFile_append]
      simp only [replayFile, replayFile_nil, Nat.zero_add]
      rw [idxLookup_insert, idxLookup_insert]
      by_cases hk : k = k0
      · simp [hk]
      · rw [if_neg hk, if_neg hk]
        exact hbase k

theorem applyMerge_sound (aid : Nat) :
    ∀ (midx idx : Idx),
      (∀ p ∈ midx, ∃ old, idxLookup idx p.1 = some old ∧ old.loc.id < aid) →
      (midx.map Prod.fst).Nodup →
      (idx.map Prod.fst).Nodup →
      (applyMerge idx aid midx).2 = 0 ∧
      (((applyMerge idx aid midx).1).map Prod.fst).Nodup ∧
      (∀ k, idxLookup (applyMerge idx aid midx).1 k =
        if (idxLookup midx k).isSome then idxLookup midx k else idxLookup idx k) := by
  intro midx
  induction midx with
  | nil =>
    intro idx _ _ hnd
    exact ⟨rfl, hnd, fun k => by simp [applyMerge]⟩
  | cons p rest ih =>
    intro idx hyp hndm hnd
    obtain ⟨k0, v0⟩ := p
    simp only [List.map_cons, List.nodup_cons] at hndm
    rcases hyp (k0, v0) (List.mem_cons_self _ _) with ⟨old, hold, holdlt⟩
    have hstep : applyMergeStep aid (idx, 0) (k0, v0) = ((idxInsert idx k0 v0).2, 0) := by
      simp only [applyMergeStep, hold, if_pos holdlt]
    have hfold : applyMerge idx aid ((k0, v0) :: rest)
        = applyMerge (idxInsert idx k0 v0).2 aid rest := by
      simp only [applyMerge, List.foldl_cons, hstep]
    have hyp' : ∀ p ∈ rest, ∃ old, idxLookup (idxInsert idx k0 v0).2 p.1 = some old ∧
        old.loc.id < aid := by
      intro q hq
      rcases hyp q (List.mem_cons_of_mem _ hq) with ⟨o, ho, holt⟩
      have hne : q.1 ≠ k0 := fun he => hndm.1 (he ▸ List.mem_map.mpr ⟨q, hq, rfl⟩)
      exact ⟨o, by rw [idxLookup_insert, if_neg hne]; exact ho, holt⟩
    rcases ih (idxInsert idx k0 v0).2 hyp' hndm.2 (idxInsert_nodup _ _ _ hnd) with
      ⟨hgbg, hnodup, hlook⟩
    rw [hfold]
    refine ⟨hgbg, hnodup, ?_⟩
    intro k
    rw [hlook k, idxLookup_cons]
    by_cases hk : k0 = k
    · subst hk
      have hrest : idxLookup rest k0 = none := by
        cases hr : idxLookup rest k0 with
        | none => rfl
        | some z =>
          exact absurd (mem_keys_of_idxLookup_isSome rest k0 (by simp [hr])) hndm.1
      rw [hrest, if_pos rfl]
      simp only [Option.isSome_none, Bool.false_eq_true, if_false]
      rw [idxLookup_insert, if_pos rfl]
      simp
    · rw [if_neg hk]
      by_cases hr : (idxLookup rest k).isSome
      · rw [if_pos hr, if_pos hr]
      · rw [if_neg hr, if_neg hr, idxLookup_insert, if_neg (fun he => hk he.symm)]

@[simp] theorem applyMerge_nil (idx : Idx) (aid : Nat) : applyMerge idx aid [] = (idx, 0) := rfl

theorem filesDelRange_append (l1 l2 : Files) (low hi : Nat) :
    filesDelRange (l1 ++ l2) low hi = filesDelRange l1 low hi ++ filesDelRange l2 low hi := by
  unfold filesDelRange
  exact List.filter_append _ _

theorem filesDelRange_all (l : Files) (low hi : Nat)
    (hall : ∀ p ∈ l, low ≤ p.1 ∧ p.1 < hi) : filesDelRange l low hi = [] := by
  induction l with
  | nil => rfl
  | cons q rest ih =>
    have hq := hall q (List.mem_cons_self _ _)
    unfold filesDelRange at ih ⊢
    rw [List.filter_cons]
    have : (!(decide (low ≤ q.1) && decide (q.1 < hi))) = false := by
      simp only [Bool.not_eq_false', Bool.and_eq_true, decide_eq_true_eq]
      exact hq
    rw [this]
    simp only [Bool.false_eq_true, if_false]
    exact ih (fun p hp => hall p (List.mem_cons_of_mem _ hp))

theorem filesDelRange_none (l : Files) (low hi : Nat)
    (hall : ∀ p ∈ l, ¬(low ≤ p.1 ∧ p.1 < hi)) : filesDelRange l low hi = l := by
  induction l with
  | nil => rfl
  | cons q rest ih =>
    have hq := hall q (List.mem_cons_self _ _)
    unfold filesDelRange at ih ⊢
    rw [List.filter_cons]
    have : (!(decide (low ≤ q.1) && decide (q.1 < hi))) = true := by
      simp only [Bool.not_eq_true', Bool.and_eq_false_iff, decide_eq_false_iff_not,
        decide_eq_true_eq]
      omega
    rw [this]
    simp only [if_true]
    rw [ih (fun p hp => hall p (List.mem_cons_of_mem _ hp))]

theorem compact_store_empty (s : Store) (hidx : s.index = [])
    (hfilter : s.index.filter (fun p => decide (p.2.loc.id < s.activeId + 1)) = s.index) :
    s.compact = ⟨{ s with activeId := s.activeId + 1 + 1,
                          files := filesDelRange (filesSet s.files (s.activeId + 1 + 1) [])
                            s.lowestId (s.activeId + 1),
                          garbage := 0,
                          lowestId := s.activeId + 1 },
      none,
      .storeLowest (s.activeId + 1) ::
        (List.range' s.lowestId (s.activeId + 1 - s.lowestId)).map .deleteFile⟩ := by
  unfold Store.compact
  simp only [hfilter, hidx, List.map_nil, List.isEmpty_nil, if_true]
  rfl

theorem compact_store_merge (s : Store)
    (hfilter : s.index.filter (fun p => decide (p.2.loc.id < s.activeId + 1)) = s.index)
    (hvecne : (s.index.map Prod.snd).isEmpty = false)
    (midx : Idx) (temp : SegFile)
    (hrun : mergeRun (filesSet s.files (s.activeId + 1 + 1) []) (s.activeId + 1)
      (s.index.map Prod.snd) = .ok (midx, temp)) :
    s.compact = ⟨{ s with
        activeId := s.activeId + 1 + 1,
        files := filesDelRange (filesSet (filesSet s.files (s.activeId + 1 + 1) [])
          (s.activeId + 1) temp) s.lowestId (s.activeId + 1),
        index := (applyMerge s.index (s.activeId + 1 + 1) midx).1,
        garbage := 0 + (applyMerge s.index (s.activeId + 1 + 1) midx).2,
        lowestId := s.activeId + 1 },
      none,
      .storeLowest (s.activeId + 1) ::
        (List.range' s.lowestId (s.activeId + 1 - s.lowestId)).map .deleteFile⟩ := by
  unfold Store.compact
  simp only [hfilter, hvecne, Bool.false_eq_true, if_false, hrun]
  try rfl

theorem compact_spec (s : Store) (h : Inv s) :
    (s.compact).err = none ∧
    Inv (s.compact).store ∧
    (∀ k, (s.compact).store.visible k = s.visible k) ∧
    ((s.compact).store.lowestId = s.activeId + 1) ∧
    ((s.compact).events = .storeLowest (s.activeId + 1) ::
      (List.range' s.lowestId (s.activeId + 1 - s.lowestId)).map .deleteFile) := by
  have hfilter : s.index.filter (fun p => decide (p.2.loc.id < s.activeId + 1)) = s.index := by
    rw [List.filter_eq_self]
    intro p hp
    have hl := idxLookup_of_mem s.index h.nodup p hp
    have hle := (inv_loc_id s h p.1 p.2 hl).2
    simp only [decide_eq_true_eq]
    omega
  by_cases hidx : s.index = []
  · have hdel : filesDelRange (filesSet s.files (s.activeId + 1 + 1) [])
        s.lowestId (s.activeId + 1) = [(s.activeId + 1 + 1, [])] := by
      rw [filesSet_append_gt _ _ _
          (fun p hp => Nat.lt_of_le_of_lt (h.active_max p hp) (by omega)),
        filesDelRange_append,
        filesDelRange_all s.files _ _ (fun p hp =>
          ⟨h.low_le p hp, by have := h.active_max p hp; omega⟩),
        filesDelRange_none _ _ _ (by
          intro p hp
          simp only [List.mem_singleton] at hp
          rw [hp]
          simp)]
      simp
    rw [compact_store_empty s hidx hfilter]
    refine ⟨rfl, ?_, ?_, rfl, rfl⟩
    · rw [hdel]
      refine ⟨?_, ?_, ?_, ?_, ?_, ?_⟩
      · simp
      · simp [fileGet]
      · intro p hp
        simp only [List.mem_singleton] at hp
        rw [hp]
      · intro p hp
        simp only [List.mem_singleton] at hp
        rw [hp]
        simp
      · dsimp only
        rw [hidx]
        simp
      · intro k
        dsimp only
        rw [hidx]
        simp [load_index_eq_foldl]
    · intro k
      rw [hdel]
      unfold Store.visible
      dsimp only
      rw [hidx]
      rfl
  · have hvecne : (s.index.map Prod.snd).isEmpty = false := by
      cases hi : s.index with
      | nil => exact absurd hi hidx
      | cons p r => simp
    have hdecs : ∀ p ∈ s.index, ∃ v,
        fileDecode (filesSet s.files (s.activeId + 1 + 1) []) p.2.loc
          = some (.Set p.1 v) := by
      intro p hp
      have hl := idxLookup_of_mem s.index h.nodup p hp
      rcases inv_decode s h p.1 p.2 hl with ⟨v, hv, _⟩
      have hle := (inv_loc_id s h p.1 p.2 hl).2
      refine ⟨v, ?_⟩
      unfold fileDecode at hv ⊢
      rw [fileGet_filesSet_ne _ _ _ _ (show p.2.loc.id ≠ s.activeId + 1 + 1 by omega)]
      exact hv
    rcases mergeFold_sound (filesSet s.files (s.activeId + 1 + 1) []) (s.activeId + 1)
        s.index ([], []) hdecs h.nodup with
      ⟨midx, temp, hfold, ⟨extra, htemp⟩, habs, hmem, hnodupf, hrep⟩
    have hrun : mergeRun (filesSet s.files (s.activeId + 1 + 1) []) (s.activeId + 1)
        (s.index.map Prod.snd) = .ok (midx, temp) := hfold
    have hmidxnd : (midx.map Prod.fst).Nodup := hnodupf (by simp)
    have hreplayT : ∀ k, idxLookup (replayFile (s.activeId + 1) ([], 0) 0 temp).1 k
        = idxLookup midx k := hrep (fun k => rfl)
    have hsome : ∀ k, (idxLookup midx k).isSome → (idxLookup s.index k).isSome := by
      intro k hk
      by_contra hc
      have hnotmem : k ∉ s.index.map Prod.fst :=
        fun hm => hc (idxLookup_isSome_of_mem_keys s.index k hm)
      rw [habs k hnotmem] at hk
      simp [idxLookup] at hk
    have hsome' : ∀ k info, idxLookup s.index k = some info → (idxLookup midx k).isSome := by
      intro k info hl
      rcases hmem k info hl with ⟨off, v, hmk, _, _⟩
      simp [hmk]
    have hyp : ∀ p ∈ midx, ∃ old, idxLookup s.index p.1 = some old ∧
        old.loc.id < s.activeId + 1 + 1 := by
      intro p hp
      have hpl := idxLookup_of_mem midx hmidxnd p hp
      have hsm := hsome p.1 (by simp [hpl])
      cases hl : idxLookup s.index p.1 with
      | none => rw [hl] at hsm; simp at hsm
      | some old =>
        have := (inv_loc_id s h p.1 old hl).2
        exact ⟨old, rfl, by omega⟩
    rcases applyMerge_sound (s.activeId + 1 + 1) midx s.index hyp hmidxnd h.nodup with
      ⟨hgbg, hnodup2, hlook2⟩
    have hfiles2 : filesSet (filesSet s.files (s.activeId + 1 + 1) []) (s.activeId + 1) temp
        = s.files ++ [(s.activeId + 1, temp), (s.activeId + 1 + 1, [])] := by
      rw [filesSet_append_gt s.files (s.activeId + 1 + 1) []
        (fun p hp => by have := h.active_max p hp; omega)]
      exact filesSet_append_mid s.files _ _ temp []
        (fun p hp => by have := h.active_max p hp; omega) (by omega)
    have hdel : filesDelRange
        (s.files ++ [(s.activeId + 1, temp), (s.activeId + 1 + 1, [])])
        s.lowestId (s.activeId + 1)
        = [(s.activeId + 1, temp), (s.activeId + 1 + 1, [])] := by
      rw [filesDelRange_append,
        filesDelRange_all s.files _ _ (fun p hp =>
          ⟨h.low_le p hp, by have := h.active_max p hp; omega⟩),
        filesDelRange_none _ _ _ (by
          intro p hp
          rcases List.mem_cons.mp hp with hp | hp
          · rw [hp]; simp
          · simp only [List.mem_singleton] at hp
            rw [hp]; simp)]
      simp
    rw [compact_store_merge s hfilter hvecne midx temp hrun, hfiles2, hdel]
    refine ⟨rfl, ?_, ?_, rfl, rfl⟩
    · refine ⟨?_, ?_, ?_, ?_, ?_, ?_⟩
      · simp [List.pairwise_cons]
      · dsimp only
        rw [fileGet_cons, if_neg (by omega), fileGet_cons, if_pos rfl]
        rfl
      · intro p hp
        dsimp only at hp ⊢
        rcases List.mem_cons.mp hp with hp | hp
        · rw [hp]; omega
        · simp only [List.mem_singleton] at hp
          rw [hp]
      · intro p hp
        dsimp only at hp ⊢
        rcases List.mem_cons.mp hp with hp | hp
        · rw [hp]
        · simp only [List.mem_singleton] at hp
          rw [hp]; omega
      · exact hnodup2
      · intro k
        dsimp only
        have hload : (load_index [(s.activeId + 1, temp), (s.activeId + 1 + 1, [])]).1
            = (replayFile (s.activeId + 1) ([], 0) 0 temp).1 := by
          simp [load_index_eq_foldl]
        rw [hload, hreplayT k, hlook2 k]
        cases hm : idxLookup midx k with
        | some z => simp
        | none =>
          simp only [Option.isSome_none, Bool.false_eq_true, if_false]
          cases hl : idxLookup s.index k with
          | none => rfl
          | some info =>
            have := hsome' k info hl
            rw [hm] at this
            simp at this
    · intro k
      unfold Store.visible
      dsimp only
      rw [hlook2 k]
      cases hl : idxLookup s.index k with
      | none =>
        have hm : idxLookup midx k = none := by
          cases hm : idxLookup midx k with
          | none => rfl
          | some z =>
            have := hsome k (by simp [hm])
            rw [hl] at this
            simp at this
        rw [hm]
        simp
      | some info =>
        rcases hmem k info hl with ⟨off, v, hmk, hfd, hdt⟩
        rw [hmk]
        simp only [Option.isSome_some, if_true]
        have hfd2 : fileDecode [(s.activeId + 1, temp), (s.activeId + 1 + 1, [])]
            (CmdInfo.mk' (s.activeId + 1) off (serLen (Command.Set k v))).loc
            = some (Command.Set k v) := by
          unfold fileDecode
          simp only [CmdInfo.mk']
          rw [fileGet_cons, if_pos rfl]
          simpa using hdt
        rw [hfd2]
        have hle := (inv_loc_id s h k info hl).2
        have hfd3 : fileDecode s.files info.loc = some (Command.Set k v) := by
          unfold fileDecode at hfd ⊢
          rw [fileGet_filesSet_ne _ _ _ _
            (show info.loc.id ≠ s.activeId + 1 + 1 by omega)] at hfd
          exact hfd
        rw [hfd3]

/-! ### Reopen (build) lemmas -/

theorem pairwise_le_getLast : ∀ (l : Files),
    List.Pairwise (· < ·) (l.map Prod.fst) →
    ∀ q ∈ l, ∀ (hne : l ≠ []), q.1 ≤ (l.getLast hne).1 := by
  intro l
  induction l with
  | nil => intro _ q hq; cases hq
  | cons p rest ih =>
    intro hs q hq hne
    simp only [List.map_cons, List.pairwise_cons] at hs
    cases rest with
    | nil =>
      rcases List.mem_cons.mp hq with h1 | h1
      · rw [h1]
        exact Nat.le_refl _
      · cases h1
    | cons r rs =>
      rw [List.getLast_cons (by simp)]
      rcases List.mem_cons.mp hq with h1 | h1
      · rw [h1]
        have hlast_mem : (r :: rs).getLast (by simp) ∈ r :: rs := List.getLast_mem _
        have hlt := hs.1 ((r :: rs).getLast (by simp)).1
          (List.mem_map.mpr ⟨_, hlast_mem, rfl⟩)
        omega
      · exact ih hs.2 q h1 (by simp)

theorem build_sound (s : Store) (h : Inv s) (c : Nat) :
    ∃ s', build (.file "kvs") s.files c = .ok s' ∧
      s'.files = s.files ∧
      (∀ k, idxLookup s'.index k = idxLookup s.index k) ∧
      Inv s' := by
  obtain ⟨f0, hf0⟩ := inv_active_file s h
  have hne : s.files ≠ [] := by
    intro he
    rw [he] at hf0
    cases hf0
  cases hfs : s.files with
  | nil => exact absurd hfs hne
  | cons p rest =>
    have hsorted : List.Pairwise (· < ·) ((p :: rest).map Prod.fst) := hfs ▸ h.sorted
    have hnodupids : ((p :: rest).map Prod.fst).Nodup := pairwise_lt_nodup _ hsorted
    refine ⟨{ files := p :: rest,
              activeId := ((p :: rest).getLast (List.cons_ne_nil p rest)).1,
              index := (load_index (p :: rest)).1,
              garbage := (load_index (p :: rest)).2,
              lowestId := p.1,
              fds := (p :: rest).map Prod.fst,
              cthreshold := c }, ?_, rfl, ?_, ?_⟩
    · unfold build
      dsimp only
      rw [if_neg (by simp)]
    · intro k
      show idxLookup (load_index (p :: rest)).1 k = idxLookup s.index k
      rw [← hfs]
      exact h.replay k
    · refine ⟨hsorted, ?_, ?_, ?_, ?_, ?_⟩
      · show (fileGet (p :: rest) ((p :: rest).getLast _).1).isSome
        rw [fileGet_of_mem_nodup (p :: rest) hnodupids _ (List.getLast_mem _)]
        rfl
      · intro q hq
        exact pairwise_le_getLast (p :: rest) hsorted q hq (List.cons_ne_nil p rest)
      · intro q hq
        show p.1 ≤ q.1
        rcases List.mem_cons.mp hq with h1 | h1
        · rw [h1]
        · simp only [List.map_cons, List.pairwise_cons] at hsorted
          exact Nat.le_of_lt (hsorted.1 q.1 (List.mem_map.mpr ⟨q, h1, rfl⟩))
      · exact load_index_nodup (p :: rest)
      · intro k
        rfl

/-! ### Reachability, get, and visible-state lemmas -/

theorem reachable_inv {s : Store} (h : Reachable s) : Inv s := by
  induction h with
  | init c => exact inv_mkInit c
  | set k v _ ih => exact inv_set _ ih k v
  | remove k _ ih => exact inv_remove _ ih k
  | compact _ ih => exact (compact_spec _ ih).2.1
  | get k _ ih => exact inv_get _ ih k
  | reopen c _ hb ih =>
    rcases build_sound _ ih c with ⟨s'', hb2, _, _, hinv⟩
    rw [hb2] at hb
    injection hb with hb
    rw [← hb]
    exact hinv

theorem get_ok (s : Store) (h : Inv s) (k : Key) : (s.get k).2 = .ok (s.visible k) := by
  unfold Store.get Store.visible
  cases hl : idxLookup s.index k with
  | none => rfl
  | some info =>
    dsimp only
    rcases inv_decode s h k info hl with ⟨v, hdec, _⟩
    rcases fileDecode_inv s.files info.loc _ hdec with ⟨f, hfg, hda⟩
    have hres : (s.fetch info.loc).res = .ok (Command.Set k v) := by
      unfold Store.fetch
      by_cases hc : s.fds.contains info.loc.id = true
      · rw [if_pos hc, hfg]
        simp only [hda]
      · rw [if_neg hc, hfg]
        simp only [hda]
    rw [hres, hdec]
    simp

theorem fileDecode_append_active (s : Store) (h : Inv s) (c : Command) (loc : Location)
    (cmd : Command) (hdec : fileDecode s.files loc = some cmd) :
    fileDecode (filesSet s.files s.activeId (s.activeFile ++ [c])) loc = some cmd := by
  unfold fileDecode at hdec ⊢
  by_cases hid : loc.id = s.activeId
  · obtain ⟨f0, hf0⟩ := inv_active_file s h
    have hAF : s.activeFile = f0 := by unfold Store.activeFile; rw [hf0]; rfl
    rw [hid] at hdec ⊢
    rw [hf0] at hdec
    simp only [Option.some_bind] at hdec
    rw [fileGet_filesSet_self]
    simp only [Option.some_bind]
    rw [hAF]
    exact decodeAt_append_some f0 [c] _ _ hdec
  · rw [fileGet_filesSet_ne _ _ _ _ hid]
    exact hdec

theorem visible_set_self (s : Store) (h : Inv s) (k : Key) (v : Value) :
    (s.set k v).store.visible k = some v := by
  obtain ⟨hfiles, hidx, _, _, _, _, _⟩ := set_store_fields s k v
  obtain ⟨f0, hf0⟩ := inv_active_file s h
  have hAF : s.activeFile = f0 := by unfold Store.activeFile; rw [hf0]; rfl
  unfold Store.visible
  rw [hidx, idxLookup_insert, if_pos rfl, hfiles]
  unfold fileDecode
  simp only [CmdInfo.mk']
  rw [fileGet_filesSet_self]
  simp only [Option.some_bind]
  rw [hAF]
  rw [decodeAt_append_self f0 (Command.Set k v)]

theorem visible_set_other (s : Store) (h : Inv s) (key kw : Key) (v : Value)
    (hne : key ≠ kw) : (s.set kw v).store.visible key = s.visible key := by
  obtain ⟨hfiles, hidx, _, _, _, _, _⟩ := set_store_fields s kw v
  unfold Store.visible
  rw [hidx, idxLookup_insert, if_neg hne]
  cases hl : idxLookup s.index key with
  | none => rfl
  | some info =>
    dsimp only
    rcases inv_decode s h key info hl with ⟨w, hdec, _⟩
    have hdec2 := fileDecode_append_active s h (Command.Set kw v) info.loc _ hdec
    rw [hfiles, hdec2, hdec]

theorem visible_remove_other (s : Store) (h : Inv s) (key kw : Key)
    (hne : key ≠ kw) : (s.remove kw).store.visible key = s.visible key := by
  cases hlw : idxLookup s.index kw with
  | none => rw [remove_absent s kw hlw]
  | some infow =>
    obtain ⟨hfiles, hidx, _, _, _, _⟩ := remove_store_fields s kw (by simp [hlw])
    unfold Store.visible
    rw [hidx, idxLookup_erase, if_neg hne]
    cases hl : idxLookup s.index key with
    | none => rfl
    | some info =>
      dsimp only
      rcases inv_decode s h key info hl with ⟨w, hdec, _⟩
      have hdec2 := fileDecode_append_active s h (Command.Rm kw) info.loc _ hdec
      rw [hfiles, hdec2, hdec]

theorem visible_applyOp (s : Store) (h : Inv s) (o : KvOp) (key : Key)
    (hav : o.avoids key = true) : (applyOp s o).visible key = s.visible key := by
  cases o with
  | opSet k v =>
    have hne : k ≠ key := by simpa [KvOp.avoids] using hav
    exact visible_set_other s h key k v (fun he => hne he.symm)
  | opRemove k =>
    have hne : k ≠ key := by simpa [KvOp.avoids] using hav
    exact visible_remove_other s h key k (fun he => hne he.symm)
  | opCompact => exact (compact_spec s h).2.2.1 key
  | opGet k =>
    obtain ⟨l, hg⟩ := get_store_fds_only s k
    show (s.get k).1.visible key = s.visible key
    rw [hg]
    rfl

theorem reachable_applyOp {s : Store} (h : Reachable s) (o : KvOp) :
    Reachable (applyOp s o) := by
  cases o with
  | opSet k v => exact Reachable.set k v h
  | opRemove k => exact Reachable.remove k h
  | opCompact => exact Reachable.compact h
  | opGet k => exact Reachable.get k h

theorem visible_applyOps (s : Store) (h : Reachable s) (ops : List KvOp) (key : Key)
    (hav : ∀ o ∈ ops, o.avoids key = true) :
    (applyOps s ops).visible key = s.visible key ∧ Reachable (applyOps s ops) := by
  induction ops generalizing s with
  | nil => exact ⟨rfl, h⟩
  | cons o rest ih =>
    have h1 := visible_applyOp s (reachable_inv h) o key (hav o (List.mem_cons_self _ _))
    have h2 := reachable_applyOp h o
    rcases ih (applyOp s o) h2 (fun o' ho' => hav o' (List.mem_cons_of_mem _ ho')) with
      ⟨hv, hr⟩
    refine ⟨?_, hr⟩
    rw [show applyOps s (o :: rest) = applyOps (applyOp s o) rest from rfl, hv, h1]

theorem remove_present_err (s : Store) (h : Inv s) (key : Key) (info : CmdInfo)
    (hl : idxLookup s.index key = some info) : (s.remove key).err = none := by
  have hpos := inv_len_pos s h key info hl
  have hrm : (idxRemove (s.append (Command.Rm key)).2.index key).1 = some info := hl
  unfold Store.remove
  rw [if_neg (by simp [hl])]
  dsimp only
  rw [hrm]
  dsimp only
  rw [if_neg (show ¬ (s.append (Command.Rm key)).1.len + info.len
    = (s.append (Command.Rm key)).1.len by omega)]

/-! ### The claims -/

/-- C1: Put/Get round-trip.  After a successful `set(key, v)` on a reachable
store, `get(key)` returns `Ok (Some v)` as long as every later operation is
not a `set(key, _)` or `remove(key)` (other keys may be set or removed, and
compactions and gets may run in between). -/
theorem put_get_roundtrip (s : Store) (h : Reachable s) (key : Key) (v : Value)
    (ops : List KvOp) (hav : ∀ o ∈ ops, o.avoids key = true) :
    ((s.set key v).err = none) ∧
    ((applyOps (s.set key v).store ops).get key).2 = .ok (some v) := by
  obtain ⟨_, _, _, _, _, _, herr⟩ := set_store_fields s key v
  refine ⟨herr, ?_⟩
  have h1 : Reachable (s.set key v).store := Reachable.set key v h
  have hv : (s.set key v).store.visible key = some v :=
    visible_set_self s (reachable_inv h) key v
  rcases visible_applyOps _ h1 ops key hav with ⟨hveq, hr⟩
  rw [get_ok _ (reachable_inv hr), hveq, hv]

theorem put_get_roundtrip_witness :
    (∀ o ∈ [KvOp.opSet "m" "x", KvOp.opCompact, KvOp.opGet "k"],
      o.avoids "k" = true) ∧
    ((((Store.mkInit 0).set "k" "v").err = none) ∧
      ((applyOps ((Store.mkInit 0).set "k" "v").store
        [KvOp.opSet "m" "x", KvOp.opCompact, KvOp.opGet "k"]).get "k").2
        = .ok (some "v")) :=
  ⟨by decide, put_get_roundtrip (Store.mkInit 0) (Reachable.init 0) "k" "v"
    [KvOp.opSet "m" "x", KvOp.opCompact, KvOp.opGet "k"] (by decide)⟩

/-- C2: Compaction preserves the observable state: on every reachable store a
`compact()` pass succeeds and `get` returns the same result for every key
after the pass as before it. -/
theorem compact_preserves_get_state (s : Store) (h : Reachable s) :
    ((s.compact).err = none) ∧
    ∀ k, (((s.compact).store.get k)).2 = ((s.get k)).2 := by
  have hi := reachable_inv h
  rcases compact_spec s hi with ⟨herr, hinv, hvis, _, _⟩
  refine ⟨herr, ?_⟩
  intro k
  rw [get_ok _ hinv, get_ok _ hi, hvis k]

theorem compact_preserves_get_state_witness :
    (((((Store.mkInit 0).set "k" "v").store.compact).err = none)) ∧
    (((((Store.mkInit 0).set "k" "v").store.compact).store.get "k")).2
      = ((((Store.mkInit 0).set "k" "v").store.get "k")).2 :=
  ⟨(compact_preserves_get_state _ (Reachable.set "k" "v" (Reachable.init 0))).1,
    (compact_preserves_get_state _ (Reachable.set "k" "v" (Reachable.init 0))).2 "k"⟩

/-- C3: Persistence.  For every reachable store, reopening the same directory
(`build` on the same data files with a matching `meta`) neither panics nor
fails, and every store it reconstructs answers `get` exactly as the original
store did, for every key. -/
theorem reopen_preserves_get_state (s : Store) (h : Reachable s) (c : Nat) :
    (build (.file "kvs") s.files c ≠ .panicked) ∧
    (∀ e, build (.file "kvs") s.files c ≠ .err e) ∧
    (∀ s', build (.file "kvs") s.files c = .ok s' →
      ∀ k, ((s'.get k)).2 = ((s.get k)).2) := by
  have hi := reachable_inv h
  rcases build_sound s hi c with ⟨s0, hb, hfiles, hlook, hinv⟩
  refine ⟨(by rw [hb]; intro hx; cases hx), fun e => (by rw [hb]; intro hx; cases hx), ?_⟩
  intro s' hb'
  rw [hb] at hb'
  injection hb' with hb'
  subst hb'
  intro k
  rw [get_ok _ hinv, get_ok _ hi]
  unfold Store.visible
  rw [hlook k, hfiles]

theorem reopen_preserves_get_state_witness :
    (build (.file "kvs") ((Store.mkInit 0).set "k" "v").store.files 0
      = .ok { files := [(1, [Command.Set "k" "v"])], activeId := 1,
              index := [("k", CmdInfo.mk' 1 0 15)], garbage := 0,
              lowestId := 1, fds := [1], cthreshold := 0 }) ∧
    ((({ files := [(1, [Command.Set "k" "v"])], activeId := 1,
         index := [("k", CmdInfo.mk' 1 0 15)], garbage := 0,
         lowestId := 1, fds := [1], cthreshold := 0 } : Store).get "k")).2
      = ((((Store.mkInit 0).set "k" "v").store.get "k")).2 :=
  ⟨by decide,
    (reopen_preserves_get_state _ (Reachable.set "k" "v" (Reachable.init 0)) 0).2.2
      _ (by decide) "k"⟩

/-- C4: Index invariant.  In every reachable store (reachability includes
`set`, `remove`, `compact`, `get` and reopening the directory), every key
present in the in-memory index points to an on-disk record that decodes to a
`Set` command whose key equals the index key. -/
theorem index_locator_invariant (s : Store) (h : Reachable s) (k : Key)
    (info : CmdInfo) (hl : idxLookup s.index k = some info) :
    ∃ v, fileDecode s.files info.loc = some (.Set k v) := by
  rcases inv_decode s (reachable_inv h) k info hl with ⟨v, hv, _⟩
  exact ⟨v, hv⟩

theorem index_locator_invariant_witness :
    (idxLookup ((Store.mkInit 0).set "k" "v").store.index "k"
      = some (CmdInfo.mk' 1 0 15)) ∧
    (∃ v, fileDecode ((Store.mkInit 0).set "k" "v").store.files
      (CmdInfo.mk' 1 0 15).loc = some (.Set "k" v)) :=
  ⟨by decide,
    index_locator_invariant _ (Reachable.set "k" "v" (Reachable.init 0)) "k"
      (CmdInfo.mk' 1 0 15) (by decide)⟩

/-- C5: `remove` of a key absent from the index fails with `KeyNotFound` and
leaves the whole store state (index, files, garbage counter) untouched, with
no tombstone appended and no compaction message sent; and on a reachable
store `remove` reports `KeyNotFound` exactly when the key was absent at the
initial index probe. -/
theorem remove_missing_key_spec (s : Store) (h : Reachable s) (key : Key) :
    (idxLookup s.index key = none →
      s.remove key = ⟨s, false, some (.KeyNotFound key)⟩) ∧
    ((s.remove key).err = some (.KeyNotFound key) ↔ idxLookup s.index key = none) := by
  constructor
  · exact fun hl => remove_absent s key hl
  · constructor
    · intro herr
      cases hl : idxLookup s.index key with
      | none => rfl
      | some info =>
        have hnone := remove_present_err s (reachable_inv h) key info hl
        rw [hnone] at herr
        cases herr
    · intro hl
      rw [remove_absent s key hl]

theorem remove_missing_key_spec_witness :
    (idxLookup (Store.mkInit 0).index "z" = none) ∧
    ((Store.mkInit 0).remove "z"
      = ⟨Store.mkInit 0, false, some (.KeyNotFound "z")⟩) :=
  ⟨rfl, (remove_missing_key_spec _ (Reachable.init 0) "z").1 rfl⟩

/-- C6 (counterexample): the claim that a compact message is sent precisely
when the garbage counter AFTER adding the new garbage exceeds the threshold
is false: with threshold 0, overwriting the only key adds 15 bytes of
garbage, so the counter afterwards (15) exceeds the threshold (0), yet no
message is sent, because the code tests the `fetch_add` return value, i.e.
the counter BEFORE the addition (0). -/
theorem compact_trigger_counterexample :
    ((((Store.mkInit 0).set "k" "a").store.set "k" "b").sent = false) ∧
    ((((Store.mkInit 0).set "k" "a").store.set "k" "b").store.cthreshold <
      (((Store.mkInit 0).set "k" "a").store.set "k" "b").store.garbage) := by
  constructor
  · rfl
  · decide

/-- C6 (amended): a successful `set` sends a Compact message iff the key was
already bound (so the operation created garbage) and the garbage counter
value BEFORE adding the new garbage strictly exceeds the threshold; a
`remove` of a present key sends one iff the counter before the addition
strictly exceeds the threshold. -/
theorem compact_trigger_amended (s : Store) (h : Reachable s) (key : Key) (v : Value) :
    ((s.set key v).sent
      = ((idxLookup s.index key).isSome && decide (s.cthreshold < s.garbage))) ∧
    ((idxLookup s.index key).isSome = true →
      (s.remove key).sent = decide (s.cthreshold < s.garbage)) := by
  have hi := reachable_inv h
  constructor
  · have hins : (idxInsert (s.append (Command.Set key v)).2.index key
        (s.append (Command.Set key v)).1).1 = idxLookup s.index key := rfl
    unfold Store.set
    dsimp only
    rw [hins]
    cases hl : idxLookup s.index key with
    | none =>
      dsimp only
      rw [if_pos rfl]
      simp
    | some old =>
      have hpos := inv_len_pos s hi key old hl
      dsimp only
      rw [if_neg (by omega)]
      by_cases hc : s.cthreshold < s.garbage
      · have hc2 : (s.append (Command.Set key v)).2.cthreshold
            < (s.append (Command.Set key v)).2.garbage := hc
        rw [if_pos hc2]
        simp [hc]
      · have hc2 : ¬ (s.append (Command.Set key v)).2.cthreshold
            < (s.append (Command.Set key v)).2.garbage := hc
        rw [if_neg hc2]
        simp [hc]
  · intro hl
    cases hsome : idxLookup s.index key with
    | none => rw [hsome] at hl; simp at hl
    | some old =>
      unfold Store.remove
      rw [if_neg (by simp [hsome])]
      dsimp only
      split
      · rfl
      · rfl

theorem compact_trigger_amended_witness :
    ((idxLookup ((Store.mkInit 0).set "k" "a").store.index "k").isSome = true) ∧
    ((((Store.mkInit 0).set "k" "a").store.set "k" "b").sent
      = ((idxLookup ((Store.mkInit 0).set "k" "a").store.index "k").isSome &&
        decide (((Store.mkInit 0).set "k" "a").store.cthreshold <
          ((Store.mkInit 0).set "k" "a").store.garbage))) ∧
    ((((Store.mkInit 0).set "k" "a").store.remove "k").sent
      = decide (((Store.mkInit 0).set "k" "a").store.cthreshold <
          ((Store.mkInit 0).set "k" "a").store.garbage)) :=
  ⟨by decide,
    (compact_trigger_amended _ (Reachable.set "k" "a" (Reachable.init 0)) "k" "b").1,
    (compact_trigger_amended _ (Reachable.set "k" "a" (Reachable.init 0)) "k" "b").2
      (by decide)⟩

/-- C7: Compaction deletion ordering.  On every reachable store, the event
trace of `compact` starts with the store of `merge_id` into `lowest_live`
and only then attempts deletions, exactly of the ids in
`[old lowest_live, merge_id)`; `merge_id.data` itself is never deleted, and
every deleted id is strictly below the new `lowest_live`. -/
theorem compact_deletion_ordering (s : Store) (h : Reachable s) :
    ((s.compact).events.head? = some (.storeLowest (s.activeId + 1))) ∧
    ((s.compact).events.tail
      = (List.range' s.lowestId (s.activeId + 1 - s.lowestId)).map .deleteFile) ∧
    (∀ id, CEvent.deleteFile id ∈ (s.compact).events ↔
      (s.lowestId ≤ id ∧ id < s.activeId + 1)) ∧
    (CEvent.deleteFile (s.activeId + 1) ∉ (s.compact).events) ∧
    (∀ id, CEvent.deleteFile id ∈ (s.compact).events → id < (s.compact).store.lowestId) := by
  have hi := reachable_inv h
  have hla : s.lowestId ≤ s.activeId := by
    obtain ⟨f0, hf0⟩ := inv_active_file s hi
    exact hi.low_le _ (fileGet_some_mem _ _ _ hf0)
  rcases compact_spec s hi with ⟨_, _, _, hlow, hev⟩
  have hmem : ∀ id, CEvent.deleteFile id ∈ (s.compact).events ↔
      (s.lowestId ≤ id ∧ id < s.activeId + 1) := by
    intro id
    rw [hev]
    constructor
    · intro hid
      rcases List.mem_cons.mp hid with h1 | h1
      · cases h1
      · rcases List.mem_map.mp h1 with ⟨x, hx, he⟩
        injection he with he
        rw [List.mem_range'_1] at hx
        omega
    · intro hid
      refine List.mem_cons_of_mem _ (List.mem_map.mpr ⟨id, ?_, rfl⟩)
      rw [List.mem_range'_1]
      omega
  refine ⟨by rw [hev]; rfl, by rw [hev]; rfl, hmem, ?_, ?_⟩
  · intro hmm
    have := (hmem _).mp hmm
    omega
  · intro id hid
    have := (hmem id).mp hid
    rw [hlow]
    omega

theorem compact_deletion_ordering_witness :
    (((((Store.mkInit 0).set "k" "v").store.compact).events.head?
      = some (.storeLowest (((Store.mkInit 0).set "k" "v").store.activeId + 1)))) ∧
    (CEvent.deleteFile 1 ∈ ((((Store.mkInit 0).set "k" "v").store.compact).events) ↔
      (((Store.mkInit 0).set "k" "v").store.lowestId ≤ 1 ∧
        1 < ((Store.mkInit 0).set "k" "v").store.activeId + 1)) :=
  ⟨(compact_deletion_ordering _ (Reachable.set "k" "v" (Reachable.init 0))).1,
    (compact_deletion_ordering _ (Reachable.set "k" "v" (Reachable.init 0))).2.2.1 1⟩

/-- C8 (counterexample): the claim that stale reader-cache entries are pruned
BEFORE the reader is resolved and the record decoded is false: in
`KvStore::fetch` the pruning step runs after the decode, as the event trace
shows, and the just-opened reader for a file id below `lowest_live` is itself
discarded by the pruning — under a prune-first ordering it would survive, as
the spec-ordered variant `fetchSpecOrdered` shows on the same state. -/
theorem reader_prune_counterexample :
    ((staleReaderStore.fetch ⟨1, 0⟩).events
      = [.openReader 1, .decodeRec 1 0, .pruneCache]) ∧
    ((staleReaderStore.fetch ⟨1, 0⟩).res = .ok (Command.Set "k" "v")) ∧
    ((staleReaderStore.fetch ⟨1, 0⟩).store.fds = []) ∧
    ((staleReaderStore.fetchSpecOrdered ⟨1, 0⟩).store.fds = [1]) :=
  ⟨rfl, rfl, rfl, rfl⟩

/-- C8 (amended): when `fetch` resolves a locator whose file id is absent
from the per-handle reader cache (and the file exists), it opens and inserts
the reader, decodes the record, and only AFTERWARDS prunes the cache,
keeping exactly the entries (including the new one) whose id is at least
`lowest_live`. -/
theorem reader_prune_amended (s : Store) (loc : Location) (f : SegFile)
    (habs : s.fds.contains loc.id = false)
    (hfile : fileGet s.files loc.id = some f) :
    ((s.fetch loc).events
      = [.openReader loc.id, .decodeRec loc.id loc.offset, .pruneCache]) ∧
    ((s.fetch loc).store.fds
      = (fdsInsert s.fds loc.id).filter (fun i => decide (s.lowestId ≤ i))) := by
  unfold Store.fetch
  rw [if_neg (show ¬ s.fds.contains loc.id = true by rw [habs]; simp), hfile]
  exact ⟨rfl, rfl⟩

theorem reader_prune_amended_witness :
    (staleReaderStore.fds.contains 1 = false) ∧
    (fileGet staleReaderStore.files 1 = some [Command.Set "k" "v"]) ∧
    ((staleReaderStore.fetch ⟨1, 0⟩).events
      = [.openReader 1, .decodeRec 1 0, .pruneCache]) ∧
    ((staleReaderStore.fetch ⟨1, 0⟩).store.fds
      = (fdsInsert staleReaderStore.fds 1).filter
          (fun i => decide (staleReaderStore.lowestId ≤ i))) :=
  ⟨rfl, rfl,
    (reader_prune_amended staleReaderStore ⟨1, 0⟩ [Command.Set "k" "v"] rfl rfl).1,
    (reader_prune_amended staleReaderStore ⟨1, 0⟩ [Command.Set "k" "v"] rfl rfl).2⟩

/-- C9 (counterexample): the claim that creating a new active segment fails
when `<id>.data` already exists is false: `file::new` opens with
`write + create + truncate` and no `create_new`, so an existing file is
silently truncated to empty rather than causing an error. -/
theorem create_active_counterexample :
    (openWith fileNewOpts (some [Command.Set "k" "v"]) = .ok []) ∧
    (∀ e, openWith fileNewOpts (some [Command.Set "k" "v"]) ≠ .error e) := by
  refine ⟨rfl, ?_⟩
  intro e hx
  cases hx

/-- C9 (amended): `file::new`, used to create an active segment, always
succeeds regardless of whether `<id>.data` exists: a missing file is created
empty and an existing file is truncated to empty. -/
theorem create_active_amended (existing : Option SegFile) :
    openWith fileNewOpts existing = .ok [] := by
  cases existing with
  | none => rfl
  | some f => rfl

theorem create_active_amended_witness :
    openWith fileNewOpts none = .ok [] ∧
    openWith fileNewOpts (some [Command.Rm "k"]) = .ok [] :=
  ⟨create_active_amended none, create_active_amended (some [Command.Rm "k"])⟩

/-- C10: opening a directory whose `meta` file contains exactly `kvs` but
which holds zero `*.data` files panics (the `unwrap` on the empty file-id
list in `KvStoreBuilder::build`) instead of returning an error or
initialising the store. -/
theorem open_empty_dir_panics (c : Nat) : build (.file "kvs") [] c = .panicked := by
  unfold build
  dsimp only
  rw [if_neg (by simp)]

theorem open_empty_dir_panics_witness :
    build (.file "kvs") [] COMPACT_THRESHOLD = .panicked :=
  open_empty_dir_panics COMPACT_THRESHOLD

end KvsProof
